import Mathlib

/-!
Verification of the dungeon-builder core against its specification.

The development shallowly embeds three parts of the source:

* the Attention Scheduler store (`src/unnamed/part_016`: `useAttentionStore`
  / `useActiveTasksStore` / `useResumedTasksStore` / `usePendingTasksStore` /
  `usePausedTasksStore` / `useTaskManagerStore`; `src/unnamed/part_017` is an
  earlier revision of the same store),
* the tilemap streaming controller `TilemapController.ts`
  (`tryProcessTargetState` pending slot, `updateSafeZone`, `isTileConnected`),
* the persistence worker `saveWorker.ts` (`tileKey`, `persistAll`, `flush`).

JavaScript numbers are modelled as rationals (`ℚ`); the 32-bit bitwise
operators of `tileKey` are modelled with explicit wrapping at `2^32`
(`toUInt32` / `toInt32`).  Reactive stores become explicit state records and
each store method becomes a pure function on them.  Timer-driven callbacks
(debounced admission pass, greedy-pass timeout, tick interval) are modelled by
executing their bodies as explicit operations: the debounce only coalesces
executions, it does not change any single execution's effect.
-/

namespace DungeonBuilder

/-! ## Attention Scheduler: data model (src/unnamed/part_016)

`TaskSaved` carries `cost`, `duration`, `elapsedMs` and the id; `type` and
`payload` are opaque and irrelevant to the verified properties, so they are
omitted.  Ids are modelled as naturals (`nanoid` yields opaque unique
strings). -/

structure Task where
  id : ℕ
  cost : ℚ
  duration : ℚ
  elapsedMs : ℚ
  deriving DecidableEq, Repr

/-- `MINIMAL_COST = 1`. -/
def MINIMAL_COST : ℚ := 1

/-- Sum of `cost` over a task list: `totalCost` of the active-tasks store. -/
def totalCost (l : List Task) : ℚ := (l.map Task.cost).sum

/-- `usedAttention`: `attentionCoefficient.value > 0 ? totalCost / coefficient : 0`. -/
def usedAttention (C total : ℚ) : ℚ := if C > 0 then total / C else 0

/-- `freeAttention`: `1 - usedAttention`. -/
def freeAttention (C total : ℚ) : ℚ := 1 - usedAttention C total

/-- `canFit` of `useAttentionStore`:
if the coefficient is `≤ 0` the task never fits, else
`freeAttention >= cost / coefficient`. -/
def canFit (C total cost : ℚ) : Bool :=
  if C ≤ 0 then false else decide (freeAttention C total ≥ cost / C)

/-- `Map.set` on the active/paused stores: replace the entry with the same id
in place, otherwise append (JS `Map` keeps insertion order). -/
def mapSet (l : List Task) (t : Task) : List Task :=
  if l.any (fun u => u.id = t.id) then l.map (fun u => if u.id = t.id then t else u)
  else l ++ [t]

/-- `Map.delete` / `splice` at `findIndex`: remove the first task with the id
(no change when absent). -/
def removeFirst (l : List Task) (id : ℕ) : List Task :=
  l.eraseP (fun t => t.id = id)

/-- The scheduler state: the four pools plus the attention coefficient and the
greedy-pass flags of `useTaskManagerStore`. -/
structure SchedState where
  C : ℚ
  active : List Task
  paused : List Task
  resumed : List Task
  pending : List Task
  greedyPassEnabled : Bool
  greedyPassScheduled : Bool
  deriving DecidableEq, Repr

/-- Initial state: `attentionCoefficient = 0`, all pools empty, greedy off. -/
def initState : SchedState :=
  { C := 0, active := [], paused := [], resumed := [], pending := []
    greedyPassEnabled := false, greedyPassScheduled := false }

/-! ## Sequential admission (`tryFillPool`) -/

/-- One `while (queue.first && canFit(queue.first)) activate(queue.shift())`
loop of `tryFillPool`: admits heads of `queue` into `active` while they fit. -/
def fillLoop (C : ℚ) (active queue : List Task) : List Task × List Task :=
  match queue with
  | [] => (active, [])
  | t :: rest =>
    if canFit C (totalCost active) t.cost then fillLoop C (mapSet active t) rest
    else (active, t :: rest)

/-- Body of the debounced `tryFillPool` of `useTaskManagerStore`: guard on
`canFit(MINIMAL_COST)`, drain `resumed`, guard, drain `pending`, guard, then
possibly schedule a greedy pass. -/
def tryFillPoolStep (s : SchedState) : SchedState :=
  if ¬ canFit s.C (totalCost s.active) MINIMAL_COST then s
  else
    let p1 := fillLoop s.C s.active s.resumed
    if ¬ canFit s.C (totalCost p1.1) MINIMAL_COST then
      { s with active := p1.1, resumed := p1.2 }
    else
      let p2 := fillLoop s.C p1.1 s.pending
      if ¬ canFit s.C (totalCost p2.1) MINIMAL_COST then
        { s with active := p2.1, resumed := p1.2, pending := p2.2 }
      else
        let needGreedyPass :=
          s.greedyPassEnabled && !s.greedyPassScheduled &&
            (!p1.2.isEmpty || !p2.2.isEmpty)
        { s with active := p2.1, resumed := p1.2, pending := p2.2,
                 greedyPassScheduled := needGreedyPass || s.greedyPassScheduled }

/-! ## Greedy pass (`scheduleGreedyPass` timeout body)

The source iterates `for (const task of resumedStore.tasks)` over the *live*
array while `remove` splices it: the JS array iterator advances its index each
step against the current length, so after an admitted task is spliced out the
element that slid into its position is skipped.  `greedyLoopLive` models that
iterator exactly. -/

def greedyLoopLive (C : ℚ) (i : ℕ) (queue active : List Task) :
    List Task × List Task :=
  if h : i < queue.length then
    if canFit C (totalCost active) (queue.get ⟨i, h⟩).cost then
      greedyLoopLive C (i + 1) (removeFirst queue (queue.get ⟨i, h⟩).id)
        (mapSet active (queue.get ⟨i, h⟩))
    else greedyLoopLive C (i + 1) queue active
  else (queue, active)
  termination_by queue.length - i
  decreasing_by
  · have hle : (removeFirst queue (queue.get ⟨i, h⟩).id).length ≤ queue.length :=
      (List.eraseP_sublist queue).length_le
    omega
  · omega

/-- The `setTimeout` body of `scheduleGreedyPass` (task manager store): guard on `canFit(MINIMAL_COST)`, live-iterate `resumed`, guard,
live-iterate `pending`, reset the scheduled flag.  When a guard fails the
function returns early and the flag stays set. -/
def greedyPassStep (s : SchedState) : SchedState :=
  if ¬ canFit s.C (totalCost s.active) MINIMAL_COST then s
  else
    let p1 := greedyLoopLive s.C 0 s.resumed s.active
    if ¬ canFit s.C (totalCost p1.2) MINIMAL_COST then
      { s with resumed := p1.1, active := p1.2 }
    else
      let p2 := greedyLoopLive s.C 0 s.pending p1.2
      { s with resumed := p1.1, pending := p2.1, active := p2.2,
               greedyPassScheduled := false }

/-! ## Operations of the task manager -/

/-- `tick` of `useActiveTasksStore`: advance every active task by `delta`
(no-op when `delta ≤ 0`) and report the ids that reached their duration. -/
def tickStore (delta : ℚ) (tasks : List Task) : List Task × List ℕ :=
  if delta ≤ 0 then (tasks, [])
  else
    let updated := tasks.map (fun t => { t with elapsedMs := t.elapsedMs + delta })
    (updated, (updated.filter (fun t => t.duration ≤ t.elapsedMs)).map Task.id)

/-- The observable operations of the scheduler.  `addTask` carries the id the
`nanoid()` call produced; `tick` carries the wall-clock delta of the 1 s
interval. -/
inductive SchedOp where
  | addTask (id : ℕ) (cost duration : ℚ)
  | pauseTask (id : ℕ)
  | resumeTask (id : ℕ)
  | pauseResumedTask (id : ℕ)
  | cancelTask (id : ℕ)
  | completeTask (id : ℕ)
  | setAttentionCoefficient (value : ℚ)
  | tryFillPool
  | greedyPassFire
  | tick (delta : ℚ)
  deriving DecidableEq, Repr

/-- One observable operation of the scheduler, translated method by method
from `useTaskManagerStore` / `useAttentionStore`.  Where a method invokes the
debounced `tryFillPool`, its body runs here (coalesced invocations of one
turn run the body once, which `tick` reflects). -/
def step (s : SchedState) (op : SchedOp) : SchedState :=
  match op with
  | .addTask id cost duration =>
    tryFillPoolStep { s with
      pending := s.pending ++ [{ id := id, cost := cost, duration := duration, elapsedMs := 0 }] }
  | .pauseTask id =>
    match (s.active.find? (fun t => t.id = id)) with
    | none => s
    | some t =>
      tryFillPoolStep { s with
        active := removeFirst s.active id, paused := mapSet s.paused t }
  | .resumeTask id =>
    match (s.paused.find? (fun t => t.id = id)) with
    | none => s
    | some t =>
      tryFillPoolStep { s with
        paused := removeFirst s.paused id, resumed := s.resumed ++ [t] }
  | .pauseResumedTask id =>
    match (s.resumed.find? (fun t => t.id = id)) with
    | none => s
    | some t =>
      { s with resumed := removeFirst s.resumed id, paused := mapSet s.paused t }
  | .cancelTask id =>
    if s.active.any (fun t => t.id = id) then
      tryFillPoolStep { s with active := removeFirst s.active id }
    else
      { s with resumed := removeFirst s.resumed id,
               pending := removeFirst s.pending id,
               paused := removeFirst s.paused id }
  | .completeTask id =>
    if s.active.any (fun t => t.id = id) then
      tryFillPoolStep { s with active := removeFirst s.active id }
    else s
  | .setAttentionCoefficient value =>
    if s.C = value then s
    else
      let needUpdate := value > s.C
      let s' := { s with C := value }
      if needUpdate then tryFillPoolStep s' else s'
  | .tryFillPool => tryFillPoolStep s
  | .greedyPassFire => greedyPassStep s
  | .tick delta =>
    let p := tickStore delta s.active
    let s' := { s with active := p.2.foldl (fun acc id => removeFirst acc id) p.1 }
    if p.2.isEmpty then s' else tryFillPoolStep s'

/-! ## Derived predicates used by the verification -/

/-- Ids of a task list. -/
def ids (l : List Task) : List ℕ := l.map Task.id

/-- The chain of `canFit` checks performed while a prefix `adm` of a queue is
admitted one task at a time into `active`: each task fits at the moment it is
admitted. -/
def chainFits (C : ℚ) : List Task → List Task → Prop
  | _, [] => True
  | active, t :: rest =>
    canFit C (totalCost active) t.cost = true ∧ chainFits C (active ++ [t]) rest

/-- Well-formedness of the ids involved in an admission pass: no id occurs
twice across the active pool and the two queues. -/
def FillWF (s : SchedState) : Prop :=
  (ids s.active ++ ids s.resumed ++ ids s.pending).Nodup

/-- All tasks of the four pools. -/
def allTasks (s : SchedState) : List Task := s.active ++ s.paused ++ s.resumed ++ s.pending


/-- Reachable states have globally unique task ids (`nanoid`). -/
def IdsWF (s : SchedState) : Prop := (ids (allTasks s)).Nodup

/-- Invariant S1 of the data model: every task of every pool satisfies
`0 ≤ elapsedMs ≤ duration`. -/
def TasksWF (s : SchedState) : Prop :=
  ∀ t ∈ allTasks s, 0 ≤ t.elapsedMs ∧ t.elapsedMs ≤ t.duration

/-! ## Tilemap Streaming Engine (TilemapController.ts) -/

/-- `DirectionVector`: each component is `-1 | 0 | 1` in the source. -/
structure DirectionVector where
  x : ℤ
  y : ℤ
  deriving DecidableEq, Repr

/-- `isZeroVector`: `!(vector.x || vector.y)` — a JS number is falsy iff 0. -/
def isZeroVector (v : DirectionVector) : Bool := !(v.x != 0 || v.y != 0)

/-- The pending-slot update performed by `tryProcessTargetState` while a
generation job is in flight:
`if (!this.pendingDirection || !isCenter) this.pendingDirection = direction`
(with `isCenter = isZeroVector(direction)`). -/
def updatePendingDirection (pending : Option DirectionVector)
    (direction : DirectionVector) : Option DirectionVector :=
  if pending.isNone || !(isZeroVector direction) then some direction else pending

/-- An axis-aligned pixel rectangle, as set by
`Geom.Rectangle.setTo(x, y, width, height)`. -/
structure Rect where
  x : ℚ
  y : ℚ
  width : ℚ
  height : ℚ
  deriving DecidableEq, Repr

/-- The fields of `getBounds()` destructured by `updateSafeZone`. -/
structure BoundsRect where
  centerX : ℚ
  centerY : ℚ
  width : ℚ
  height : ℚ
  deriving DecidableEq, Repr

/-- `TILEMAP_STREAMING_CONFIG.baseSafeZoneRatio = 0.4` (constants.ts). -/
def baseSafeZoneRatio : ℚ := 2 / 5

/-- JS `Math.round`: round half toward positive infinity. -/
def jsRound (q : ℚ) : ℤ := ⌊q + 1 / 2⌋

/-- `updateSafeZone({centerX, centerY, width, height})`:
`halfWidth = Math.round(width * baseSafeZoneRatio / 2)` (same for height),
then `setTo(centerX - halfWidth, centerY - halfHeight, halfWidth * 2,
halfHeight * 2)`. -/
def updateSafeZone (b : BoundsRect) : Rect :=
  { x := b.centerX - (jsRound (b.width * baseSafeZoneRatio / 2) : ℚ)
    y := b.centerY - (jsRound (b.height * baseSafeZoneRatio / 2) : ℚ)
    width := (jsRound (b.width * baseSafeZoneRatio / 2) : ℚ) * 2
    height := (jsRound (b.height * baseSafeZoneRatio / 2) : ℚ) * 2 }

/-- The active tile layer: a `width × height` grid of tile indices. -/
structure TileLayer where
  width : ℕ
  height : ℕ
  tile : ℕ → ℕ → ℤ

/-- `layer.getTileAt(X, Y)?.index >= 0`: Phaser's `getTileAt` returns `null`
outside the layer and for blank (index `-1`) cells, so the expression holds
iff the cell is within bounds and carries an index `≥ 0`. -/
def tilePresent (L : TileLayer) (X Y : ℤ) : Bool :=
  if 0 ≤ X ∧ X < (L.width : ℤ) ∧ 0 ≤ Y ∧ Y < (L.height : ℤ) then
    decide (0 ≤ L.tile X.toNat Y.toNat)
  else false

/-- `isTileConnected(x, y)` of TilemapController.ts: translate the world cell
to the layer-local cell `(X, Y) = (x - offsetTiles.X, y - offsetTiles.Y)`,
return `false` outright when either local coordinate is negative, else test
the cell and its four orthogonal neighbours. -/
def isTileConnected (L : TileLayer) (offX offY x y : ℤ) : Bool :=
  let X := x - offX
  let Y := y - offY
  if X < 0 || Y < 0 then false
  else
    tilePresent L X Y || tilePresent L X (Y + 1) || tilePresent L X (Y - 1) ||
      tilePresent L (X + 1) Y || tilePresent L (X - 1) Y

/-- Modelled from the spec's words — "returns true iff the world cell is
present in the active buffer *or* at least one 4-neighbor cell is present" —
for comparison with the source's `isTileConnected`. -/
def isTileConnectedSpec (L : TileLayer) (offX offY x y : ℤ) : Bool :=
  let X := x - offX
  let Y := y - offY
  tilePresent L X Y || tilePresent L X (Y + 1) || tilePresent L X (Y - 1) ||
    tilePresent L (X + 1) Y || tilePresent L (X - 1) Y

/-! ## Persistence worker (saveWorker.ts) -/

/-- JS `ToInt32`: wrap an integer to `[-2^31, 2^31)`. -/
def toInt32 (n : ℤ) : ℤ := (n + 2 ^ 31) % 2 ^ 32 - 2 ^ 31

/-- The unsigned 32-bit pattern of an integer JS number. -/
def toUInt32 (n : ℤ) : ℕ := (n % 2 ^ 32).toNat

/-- JS `<< 16` on an integer: shift the 32-bit pattern, reinterpret as int32. -/
def jsShl16 (n : ℤ) : ℤ := toInt32 (n * 2 ^ 16)

/-- JS `&`: bitwise and of the 32-bit patterns, reinterpreted as int32. -/
def jsAnd (a b : ℤ) : ℤ := toInt32 ((toUInt32 a &&& toUInt32 b : ℕ) : ℤ)

/-- JS `|`: bitwise or of the 32-bit patterns, reinterpreted as int32. -/
def jsOr (a b : ℤ) : ℤ := toInt32 ((toUInt32 a ||| toUInt32 b : ℕ) : ℤ)

/-- `tileKey = (x, y) => (Math.floor(x) << 16) | (Math.floor(y) & 0xffff)`;
`Math.floor` is the identity on the integer coordinates considered here. -/
def tileKey (x y : ℤ) : ℤ := jsOr (jsShl16 x) (jsAnd y 65535)

/-- `levelMap.set(tileKey(X, Y), index)` performed by `setTile`. -/
def setTile (level : ℤ → Option ℤ) (x y idx : ℤ) : ℤ → Option ℤ :=
  fun k => if k = tileKey x y then some idx else level k

/-- `levelMap.get(tileKey(x, y))` performed by `getTile`. -/
def getTile (level : ℤ → Option ℤ) (x y : ℤ) : Option ℤ := level (tileKey x y)

/-- A pool key of the `tasks` object store. -/
inductive TaskPool where
  | active
  | paused
  | resumed
  | pending
  deriving DecidableEq, Repr

/-- In-memory state of the save worker: the data bag plus the per-category
dirty flags used by `persistAll`. -/
structure WorkerState where
  currentLevelIndex : ℕ
  levels : ℕ → List (ℤ × ℤ)
  dirtyLevels : List ℕ
  attentionLimit : ℤ
  activeTasks : List Task
  pausedTasks : List Task
  resumedTasks : List Task
  pendingTasks : List Task
  dirtyMeta : Bool
  dirtyAttention : Bool
  dirtyActiveTasks : Bool
  dirtyPausedTasks : Bool
  dirtyResumedTasks : Bool
  dirtyPendingTasks : Bool

/-- Contents of the `dungeon-builder` IndexedDB database, one entry per
object-store key; `none` models an absent key. -/
structure DBState where
  levels : ℕ → Option (List (ℤ × ℤ))
  meta : Option ℕ
  attention : Option ℤ
  tasks : TaskPool → Option (List Task)

/-- The `hasDirty` check opening `persistAll`. -/
def hasDirty (w : WorkerState) : Bool :=
  !w.dirtyLevels.isEmpty || w.dirtyMeta || w.dirtyAttention || w.dirtyActiveTasks ||
    w.dirtyPausedTasks || w.dirtyResumedTasks || w.dirtyPendingTasks

/-- The flag-clearing block of `persistAll` (executed before the transaction
is committed). -/
def clearFlags (w : WorkerState) : WorkerState :=
  { w with dirtyLevels := [], dirtyMeta := false, dirtyAttention := false,
           dirtyActiveTasks := false, dirtyPausedTasks := false,
           dirtyResumedTasks := false, dirtyPendingTasks := false }

/-- The writes of the committed transaction: every dirty category is written
from the snapshot (empty collections are deleted instead of written). -/
def applyTx (w : WorkerState) (db : DBState) : DBState :=
  { levels := fun i =>
      if i ∈ w.dirtyLevels then
        if (w.levels i).isEmpty then none else some (w.levels i)
      else db.levels i
    meta := if w.dirtyMeta then some w.currentLevelIndex else db.meta
    attention := if w.dirtyAttention then some w.attentionLimit else db.attention
    tasks := fun p =>
      match p with
      | TaskPool.active =>
        if w.dirtyActiveTasks then
          if w.activeTasks.isEmpty then none else some w.activeTasks
        else db.tasks TaskPool.active
      | TaskPool.paused =>
        if w.dirtyPausedTasks then
          if w.pausedTasks.isEmpty then none else some w.pausedTasks
        else db.tasks TaskPool.paused
      | TaskPool.resumed =>
        if w.dirtyResumedTasks then
          if w.resumedTasks.isEmpty then none else some w.resumedTasks
        else db.tasks TaskPool.resumed
      | TaskPool.pending =>
        if w.dirtyPendingTasks then
          if w.pendingTasks.isEmpty then none else some w.pendingTasks
        else db.tasks TaskPool.pending }

/-- `persistAll`, with the fate of the atomic transaction (`tx.done`) made an
explicit parameter `txOk`: nothing dirty is a silent no-op; otherwise the
flags are cleared *before* the transaction, which then either commits all
writes or fails leaving the database unchanged — the rejection propagates to
the caller and the flags stay cleared. -/
def persistAll (w : WorkerState) (db : DBState) (txOk : Bool) :
    WorkerState × DBState × Except Unit Unit :=
  if !hasDirty w then (w, db, Except.ok ())
  else
    let w' := clearFlags w
    if txOk then (w', applyTx w db, Except.ok ())
    else (w', db, Except.error ())

/-- `flush()`: cancel the throttled autosave and await `persistAll`; whatever
`persistAll` produces — including a rejection — is returned to the caller
unchanged. -/
def flush (w : WorkerState) (db : DBState) (txOk : Bool) :
    WorkerState × DBState × Except Unit Unit :=
  persistAll w db txOk


/-! ## Basic lemmas about the scheduler embedding -/


@[simp] theorem ids_nil : ids [] = [] := rfl

@[simp] theorem ids_cons (t : Task) (l : List Task) : ids (t :: l) = t.id :: ids l := rfl

@[simp] theorem ids_append (l₁ l₂ : List Task) : ids (l₁ ++ l₂) = ids l₁ ++ ids l₂ := by
  simp [ids]

@[simp] theorem totalCost_nil : totalCost [] = 0 := rfl

@[simp] theorem totalCost_cons (t : Task) (l : List Task) :
    totalCost (t :: l) = t.cost + totalCost l := by
  simp [totalCost]

@[simp] theorem totalCost_append (l₁ l₂ : List Task) :
    totalCost (l₁ ++ l₂) = totalCost l₁ + totalCost l₂ := by
  simp [totalCost]

/-- An admitted task really fits: `canFit` implies the coefficient is positive
and the active pool can absorb the cost. -/
theorem canFit_imp {C total cost : ℚ} (h : canFit C total cost = true) :
    0 < C ∧ total + cost ≤ C := by
  unfold canFit at h
  split at h
  · exact absurd h (by simp)
  · rename_i hC
    push_neg at hC
    refine ⟨hC, ?_⟩
    have h' : cost / C ≤ freeAttention C total := by simpa using of_decide_eq_true h
    unfold freeAttention usedAttention at h'
    rw [if_pos hC] at h'
    rw [div_le_iff₀ hC] at h'
    have hc : (1 - total / C) * C = C - total := by
      field_simp
    rw [hc] at h'
    linarith

/-- Conversely, a task whose cost fits in the remaining budget is admitted. -/
theorem canFit_of_le {C total cost : ℚ} (hC : 0 < C) (h : total + cost ≤ C) :
    canFit C total cost = true := by
  unfold canFit
  rw [if_neg (not_le.mpr hC)]
  refine decide_eq_true ?_
  unfold freeAttention usedAttention
  rw [if_pos hC, ge_iff_le, div_le_iff₀ hC]
  have hc : (1 - total / C) * C = C - total := by field_simp
  rw [hc]
  linarith

/-- When the task's id is fresh, `Map.set` is an append. -/
theorem mapSet_eq_append {l : List Task} {t : Task} (h : t.id ∉ ids l) :
    mapSet l t = l ++ [t] := by
  unfold mapSet
  rw [if_neg]
  simp only [List.any_eq_true, decide_eq_true_eq, not_exists, not_and]
  intro u hu hui
  exact h (by simpa [ids, hui] using List.mem_map_of_mem Task.id hu)

/-- Membership in `mapSet`. -/
theorem mem_mapSet {l : List Task} {t u : Task} (h : u ∈ mapSet l t) :
    u ∈ l ∨ u = t := by
  unfold mapSet at h
  split at h
  · rcases List.mem_map.mp h with ⟨v, hv, hvu⟩
    split at hvu
    · exact Or.inr hvu.symm
    · exact Or.inl (hvu ▸ hv)
  · rcases List.mem_append.mp h with h | h
    · exact Or.inl h
    · exact Or.inr (by simpa using h)

/-- `removeFirst` is a sublist. -/
theorem removeFirst_sublist (l : List Task) (id : ℕ) :
    List.Sublist (removeFirst l id) l :=
  List.eraseP_sublist l

theorem mem_removeFirst {l : List Task} {id : ℕ} {t : Task}
    (h : t ∈ removeFirst l id) : t ∈ l :=
  (removeFirst_sublist l id).mem h

/-- `removeFirst` on the id level is `List.erase`. -/
theorem ids_removeFirst (l : List Task) (id : ℕ) :
    ids (removeFirst l id) = (ids l).erase id := by
  induction l with
  | nil => simp [removeFirst]
  | cons u rest ih =>
    by_cases hu : u.id = id
    · simp [removeFirst, List.eraseP_cons, hu, List.erase_cons_head]
    · have h1 : removeFirst (u :: rest) id = u :: removeFirst rest id := by
        simp [removeFirst, List.eraseP_cons, hu]
      rw [h1, ids_cons, ids_cons, List.erase_cons_tail (by simp [hu]), ih]

/-- The total cost of a sublist of tasks with nonnegative costs is bounded by
the total cost of the list. -/
theorem totalCost_sublist_le {l₁ l₂ : List Task} (hsub : List.Sublist l₁ l₂)
    (h : ∀ t ∈ l₂, 0 ≤ t.cost) : totalCost l₁ ≤ totalCost l₂ := by
  induction hsub with
  | slnil => simp
  | cons u hs ih =>
    rename_i la lb
    have : ∀ t ∈ lb, 0 ≤ t.cost := fun t ht => h t (by simp [ht])
    have h0 : 0 ≤ u.cost := h u (by simp)
    have := ih this
    simp only [totalCost_cons]
    linarith
  | cons₂ u hs ih =>
    rename_i la lb
    have : ∀ t ∈ lb, 0 ≤ t.cost := fun t ht => h t (by simp [ht])
    have := ih this
    simp only [totalCost_cons]
    linarith

/-- Removing a task with nonnegative costs cannot increase the total cost. -/
theorem totalCost_removeFirst_le {l : List Task} (h : ∀ t ∈ l, 0 ≤ t.cost)
    (id : ℕ) : totalCost (removeFirst l id) ≤ totalCost l :=
  totalCost_sublist_le (removeFirst_sublist l id) h


/-- A chain of admissions keeps the capacity bound. -/
theorem chainFits_totalCost_le {C : ℚ} :
    ∀ {active adm : List Task}, chainFits C active adm →
      totalCost active ≤ C → totalCost (active ++ adm) ≤ C := by
  intro active adm
  induction adm generalizing active with
  | nil => intro _ h; simpa using h
  | cons t rest ih =>
    intro hchain h
    rcases hchain with ⟨hfit, hchain⟩
    have := (canFit_imp hfit).2
    have h' := ih hchain (by simpa using this)
    simpa [List.append_assoc] using h'

/-- Specification of the sequential `while (first && canFit(first)) shift()`
loop: it admits a prefix of the queue in FIFO order, each admitted task fits
when admitted, and the loop only stops at an empty queue or a head that does
not fit. -/
theorem fillLoop_spec (C : ℚ) :
    ∀ (queue active : List Task), (ids active ++ ids queue).Nodup →
      ∃ adm rest, queue = adm ++ rest ∧
        fillLoop C active queue = (active ++ adm, rest) ∧
        chainFits C active adm ∧
        (∀ h ∈ rest.head?, canFit C (totalCost (active ++ adm)) h.cost = false) := by
  intro queue
  induction queue with
  | nil =>
    intro active _
    exact ⟨[], [], by simp, by simp [fillLoop], trivial, by simp⟩
  | cons t rest ih =>
    intro active hnd
    by_cases hfit : canFit C (totalCost active) t.cost
    · have hfresh : t.id ∉ ids active := by
        have hdisj := List.disjoint_of_nodup_append hnd
        intro hmem
        exact hdisj hmem (by simp)
      have hset : mapSet active t = active ++ [t] := mapSet_eq_append hfresh
      have hnd' : (ids (active ++ [t]) ++ ids rest).Nodup := by
        have : ids active ++ ids (t :: rest) = ids (active ++ [t]) ++ ids rest := by
          simp
        rwa [this] at hnd
      rcases ih (active ++ [t]) hnd' with ⟨adm, rest', hq, hfill, hchain, hstop⟩
      refine ⟨t :: adm, rest', by simp [hq], ?_, ⟨hfit, hchain⟩, ?_⟩
      · simp only [fillLoop, hfit, if_true, hset, hfill]
        simp
      · intro h hh
        have := hstop h hh
        simpa [List.append_assoc] using this
    · refine ⟨[], t :: rest, by simp, ?_, trivial, ?_⟩
      · simp only [fillLoop]
        rw [if_neg hfit]
        simp
      · intro h hh
        simp only [List.head?_cons, Option.mem_def, Option.some.injEq] at hh
        subst hh
        simpa using hfit


/-- Specification of one sequential admission pass (`tryFillPool` body): a
prefix of `resumed` and then a prefix of `pending` are admitted in FIFO order,
every admitted task fits when admitted, and a pending task is only admitted
once the head of the remaining `resumed` queue (if any) no longer fits. -/
theorem tryFillPool_spec (s : SchedState) (hnd : FillWF s) :
    ∃ adm rest adm2 rest2,
      s.resumed = adm ++ rest ∧ s.pending = adm2 ++ rest2 ∧
      (tryFillPoolStep s).active = s.active ++ adm ++ adm2 ∧
      (tryFillPoolStep s).resumed = rest ∧
      (tryFillPoolStep s).pending = rest2 ∧
      (tryFillPoolStep s).paused = s.paused ∧
      (tryFillPoolStep s).C = s.C ∧
      chainFits s.C s.active adm ∧
      chainFits s.C (s.active ++ adm) adm2 ∧
      (∀ h ∈ rest.head?, canFit s.C (totalCost (s.active ++ adm)) h.cost = false ∨
        adm2 = []) := by
  by_cases h0 : canFit s.C (totalCost s.active) MINIMAL_COST = true
  · have hnd1 : (ids s.active ++ ids s.resumed).Nodup := by
      have : List.Sublist (ids s.active ++ ids s.resumed)
          (ids s.active ++ ids s.resumed ++ ids s.pending) :=
        List.sublist_append_left _ _
      exact this.nodup hnd
    obtain ⟨adm, rest, hq, hfill, hchain, hstop⟩ := fillLoop_spec s.C s.resumed s.active hnd1
    by_cases h1 : canFit s.C (totalCost (s.active ++ adm)) MINIMAL_COST = true
    · have hnd2 : (ids (s.active ++ adm) ++ ids s.pending).Nodup := by
        have hsub : List.Sublist (ids (s.active ++ adm) ++ ids s.pending)
            (ids s.active ++ ids s.resumed ++ ids s.pending) := by
          refine List.Sublist.append_right ?_ _
          rw [ids_append]
          refine List.Sublist.append_left ?_ _
          rw [hq, ids_append]
          exact List.sublist_append_left _ _
        exact hsub.nodup hnd
      obtain ⟨adm2, rest2, hq2, hfill2, hchain2, hstop2⟩ :=
        fillLoop_spec s.C s.pending (s.active ++ adm) hnd2
      have hstop' : ∀ h ∈ rest.head?,
          canFit s.C (totalCost (s.active ++ adm)) h.cost = false ∨ adm2 = [] :=
        fun h hh => Or.inl (hstop h hh)
      have hres : tryFillPoolStep s =
          { s with active := s.active ++ adm ++ adm2, resumed := rest, pending := rest2,
                   greedyPassScheduled :=
                     (s.greedyPassEnabled && !s.greedyPassScheduled &&
                       (!rest.isEmpty || !rest2.isEmpty)) || s.greedyPassScheduled } ∨
          tryFillPoolStep s =
          { s with active := s.active ++ adm ++ adm2, resumed := rest,
                   pending := rest2 } := by
        unfold tryFillPoolStep
        rw [if_neg (by simpa using h0), hfill]
        simp only
        rw [if_neg (by simpa using h1), hfill2]
        by_cases h2 : canFit s.C (totalCost (s.active ++ adm ++ adm2)) MINIMAL_COST = true
        · rw [if_neg (by simpa using h2)]
          exact Or.inl (by simp [List.append_assoc])
        · rw [if_pos (by simpa using h2)]
          exact Or.inr (by simp [List.append_assoc])
      rcases hres with hres | hres <;>
        exact ⟨adm, rest, adm2, rest2, hq, hq2, by simp [hres], by simp [hres],
          by simp [hres], by simp [hres], by simp [hres], hchain, hchain2, hstop'⟩
    · have hres : tryFillPoolStep s =
          { s with active := s.active ++ adm, resumed := rest } := by
        unfold tryFillPoolStep
        rw [if_neg (by simpa using h0), hfill]
        simp only
        rw [if_pos (by simpa using h1)]
      refine ⟨adm, rest, [], s.pending, hq, by simp, by simp [hres], by simp [hres],
        by simp [hres], by simp [hres], by simp [hres], hchain, ?_, fun h hh => Or.inr rfl⟩
      show True
      trivial
  · have hres : tryFillPoolStep s = s := by
      unfold tryFillPoolStep
      rw [if_pos (by simpa using h0)]
    refine ⟨[], s.resumed, [], s.pending, by simp, by simp, by simp [hres], by simp [hres],
      by simp [hres], by simp [hres], by simp [hres], ?_, ?_, fun h hh => Or.inr rfl⟩
    · show True
      trivial
    · show True
      trivial

/-- One sequential admission pass keeps `Σ cost over Active ≤ C`. -/
theorem tryFillPool_inv (s : SchedState) (hnd : FillWF s)
    (hInv : totalCost s.active ≤ s.C) :
    totalCost (tryFillPoolStep s).active ≤ (tryFillPoolStep s).C := by
  obtain ⟨adm, rest, adm2, rest2, hq, hq2, hact, _, _, _, hC, hchain, hchain2, _⟩ :=
    tryFillPool_spec s hnd
  rw [hact, hC]
  have h1 := chainFits_totalCost_le hchain hInv
  have h2 := chainFits_totalCost_le hchain2 h1
  simpa [List.append_assoc] using h2

/-! ## Id discipline of reachable states -/



theorem nodup_pull_second {A Z W : List ℕ} (h : (A ++ Z ++ W).Nodup) :
    (Z ++ (A ++ W)).Nodup := by
  have hp : List.Perm (A ++ Z ++ W) (Z ++ (A ++ W)) := by
    have h1 : List.Perm (A ++ Z) (Z ++ A) := List.perm_append_comm
    have h2 := h1.append_right W
    have e2 : Z ++ (A ++ W) = (Z ++ A) ++ W := by simp [List.append_assoc]
    rw [e2]
    exact h2
  exact hp.nodup h

/-- Dropping the paused pool keeps ids nodup. -/
theorem IdsWF.fillWF {s : SchedState} (h : IdsWF s) : FillWF s := by
  have h' : (ids s.paused ++ (ids s.active ++ (ids s.resumed ++ ids s.pending))).Nodup := by
    have := nodup_pull_second (A := ids s.active) (Z := ids s.paused)
      (W := ids s.resumed ++ ids s.pending)
    apply this
    simpa [IdsWF, allTasks, List.append_assoc] using h
  have := h'.of_append_right
  simpa [FillWF, List.append_assoc] using this

theorem IdsWF.not_mem_of_mem_paused {s : SchedState} (h : IdsWF s) {x : ℕ}
    (hx : x ∈ ids s.paused) : x ∉ ids s.active ++ (ids s.resumed ++ ids s.pending) := by
  have h' : (ids s.paused ++ (ids s.active ++ (ids s.resumed ++ ids s.pending))).Nodup := by
    have := nodup_pull_second (A := ids s.active) (Z := ids s.paused)
      (W := ids s.resumed ++ ids s.pending)
    apply this
    simpa [IdsWF, allTasks, List.append_assoc] using h
  exact List.disjoint_of_nodup_append h' hx

/-! ## Greedy-pass invariants -/

/-- The live greedy loop moves ids from the queue to the active pool (as a
permutation of the combined ids) and keeps the capacity bound. -/
theorem greedyLoopLive_inv (C : ℚ) :
    ∀ (i : ℕ) (queue active : List Task),
      (ids queue ++ ids active).Nodup → totalCost active ≤ C →
      List.Perm
        (ids (greedyLoopLive C i queue active).1 ++ ids (greedyLoopLive C i queue active).2)
        (ids queue ++ ids active) ∧
      totalCost (greedyLoopLive C i queue active).2 ≤ C := by
  refine greedyLoopLive.induct C
    (fun i queue active =>
      (ids queue ++ ids active).Nodup → totalCost active ≤ C →
      List.Perm
        (ids (greedyLoopLive C i queue active).1 ++ ids (greedyLoopLive C i queue active).2)
        (ids queue ++ ids active) ∧
      totalCost (greedyLoopLive C i queue active).2 ≤ C) ?_ ?_ ?_
  · intro i queue active h hfit ih
    intro hnd hle
    have heq : greedyLoopLive C i queue active =
        greedyLoopLive C (i + 1) (removeFirst queue (queue.get ⟨i, h⟩).id)
          (mapSet active (queue.get ⟨i, h⟩)) := by
      rw [greedyLoopLive]
      rw [dif_pos h, if_pos hfit]
    have hx : (queue.get ⟨i, h⟩).id ∈ ids queue :=
      List.mem_map_of_mem Task.id (queue.get_mem i h)
    have hfresh : (queue.get ⟨i, h⟩).id ∉ ids active :=
      (List.disjoint_of_nodup_append hnd) hx
    have hset : mapSet active (queue.get ⟨i, h⟩) = active ++ [queue.get ⟨i, h⟩] :=
      mapSet_eq_append hfresh
    have hidq : ids (removeFirst queue (queue.get ⟨i, h⟩).id) =
        (ids queue).erase (queue.get ⟨i, h⟩).id := ids_removeFirst _ _
    have hida : ids (mapSet active (queue.get ⟨i, h⟩)) =
        ids active ++ [(queue.get ⟨i, h⟩).id] := by
      rw [hset]; simp
    have pMoved : List.Perm
        (ids (removeFirst queue (queue.get ⟨i, h⟩).id) ++ ids (mapSet active (queue.get ⟨i, h⟩)))
        (ids queue ++ ids active) := by
      rw [hidq, hida]
      have p1 : List.Perm (ids active ++ [(queue.get ⟨i, h⟩).id])
          ((queue.get ⟨i, h⟩).id :: ids active) :=
        List.perm_append_singleton _ _
      have p2 := ((List.Perm.refl ((ids queue).erase (queue.get ⟨i, h⟩).id)).append p1)
      refine p2.trans ?_
      have p3 : List.Perm
          ((ids queue).erase (queue.get ⟨i, h⟩).id ++ (queue.get ⟨i, h⟩).id :: ids active)
          ((queue.get ⟨i, h⟩).id :: ((ids queue).erase (queue.get ⟨i, h⟩).id ++ ids active)) :=
        List.perm_middle
      refine p3.trans ?_
      have p4 : List.Perm ((queue.get ⟨i, h⟩).id :: (ids queue).erase (queue.get ⟨i, h⟩).id)
          (ids queue) := (List.perm_cons_erase hx).symm
      simpa using p4.append_right (ids active)
    have hnd' : (ids (removeFirst queue (queue.get ⟨i, h⟩).id) ++
        ids (mapSet active (queue.get ⟨i, h⟩))).Nodup :=
      pMoved.symm.nodup hnd
    have hle' : totalCost (mapSet active (queue.get ⟨i, h⟩)) ≤ C := by
      rw [hset]
      have := (canFit_imp hfit).2
      simpa using this
    obtain ⟨p, hT⟩ := ih hnd' hle'
    rw [heq]
    exact ⟨p.trans pMoved, hT⟩
  · intro i queue active h hfit ih
    intro hnd hle
    have heq : greedyLoopLive C i queue active = greedyLoopLive C (i + 1) queue active := by
      rw [greedyLoopLive]
      rw [dif_pos h, if_neg hfit]
    rw [heq]
    exact ih hnd hle
  · intro i queue active h
    intro hnd hle
    have heq : greedyLoopLive C i queue active = (queue, active) := by
      rw [greedyLoopLive]
      rw [dif_neg h]
    rw [heq]
    exact ⟨List.Perm.refl _, hle⟩

/-- A fired greedy pass keeps `Σ cost over Active ≤ C`. -/
theorem greedyPass_inv (s : SchedState) (hnd : FillWF s)
    (hInv : totalCost s.active ≤ s.C) :
    totalCost (greedyPassStep s).active ≤ (greedyPassStep s).C := by
  have hndRA : (ids s.resumed ++ ids s.active).Nodup :=
    List.nodup_append_comm.mp hnd.of_append_left
  obtain ⟨pm1, hT1⟩ := greedyLoopLive_inv s.C 0 s.resumed s.active hndRA hInv
  unfold greedyPassStep
  by_cases h0 : canFit s.C (totalCost s.active) MINIMAL_COST = true
  · rw [if_neg (by simpa using h0)]
    simp only
    by_cases h1 :
        canFit s.C (totalCost (greedyLoopLive s.C 0 s.resumed s.active).2) MINIMAL_COST = true
    · rw [if_neg (by simpa using h1)]
      have hnd2 : (ids s.pending ++
          ids (greedyLoopLive s.C 0 s.resumed s.active).2).Nodup := by
        refine List.nodup_append.mpr ⟨hnd.of_append_right, ?_, ?_⟩
        · exact (pm1.symm.nodup hndRA).of_append_right
        · intro a ha hb
          have hmem : a ∈ ids s.resumed ++ ids s.active :=
            pm1.subset (List.mem_append.mpr (Or.inr hb))
          have hdisj := List.disjoint_of_nodup_append hnd
          refine hdisj ?_ ha
          rcases List.mem_append.mp hmem with h | h
          · exact List.mem_append.mpr (Or.inr h)
          · exact List.mem_append.mpr (Or.inl h)
      obtain ⟨pm2, hT2⟩ := greedyLoopLive_inv s.C 0 s.pending
        (greedyLoopLive s.C 0 s.resumed s.active).2 hnd2 hT1
      simpa using hT2
    · rw [if_pos (by simpa using h1)]
      simpa using hT1
  · rw [if_pos (by simpa using h0)]
    simpa using hInv

/-! ## Lemmas for the operation-level capacity bound -/

theorem nodup_append_insert_last {A R P : List ℕ} {x : ℕ} (h : (A ++ R ++ P).Nodup)
    (hx : x ∉ A ++ R ++ P) : (A ++ R ++ (P ++ [x])).Nodup := by
  have e : A ++ R ++ (P ++ [x]) = (A ++ R ++ P) ++ [x] := by simp [List.append_assoc]
  rw [e]
  exact ((List.perm_append_singleton x _).symm).nodup (List.nodup_cons.mpr ⟨hx, h⟩)

theorem nodup_append_insert_mid {A R P : List ℕ} {x : ℕ} (h : (A ++ R ++ P).Nodup)
    (hx : x ∉ A ++ R ++ P) : (A ++ (R ++ [x]) ++ P).Nodup := by
  have e : A ++ (R ++ [x]) ++ P = (A ++ R) ++ (x :: P) := by simp [List.append_assoc]
  rw [e]
  have hmid : List.Perm ((A ++ R) ++ (x :: P)) (x :: ((A ++ R) ++ P)) := List.perm_middle
  exact hmid.symm.nodup (List.nodup_cons.mpr ⟨hx, h⟩)

theorem nodup_append_sub3 {A A' R R' P P' : List ℕ} (h : (A ++ R ++ P).Nodup)
    (hA : List.Sublist A' A) (hR : List.Sublist R' R) (hP : List.Sublist P' P) :
    (A' ++ R' ++ P').Nodup :=
  (((hA.append hR).append hP)).nodup h

theorem foldl_removeFirst_sublist (L : List ℕ) :
    ∀ l : List Task, List.Sublist (L.foldl (fun acc id => removeFirst acc id) l) l := by
  induction L with
  | nil => intro l; simp
  | cons id rest ih =>
    intro l
    simp only [List.foldl_cons]
    exact (ih (removeFirst l id)).trans (removeFirst_sublist l id)

theorem ids_tickMap (delta : ℚ) (l : List Task) :
    ids (l.map (fun t => { t with elapsedMs := t.elapsedMs + delta })) = ids l := by
  simp [ids, List.map_map]

theorem totalCost_tickMap (delta : ℚ) (l : List Task) :
    totalCost (l.map (fun t => { t with elapsedMs := t.elapsedMs + delta })) = totalCost l := by
  unfold totalCost
  rw [List.map_map]
  congr 1

theorem mem_W_of_mem_fill {s : SchedState} {x : ℕ}
    (hm : x ∈ ids s.active ++ ids s.resumed ++ ids s.pending) :
    x ∈ ids (allTasks s) := by
  simp only [allTasks, ids_append, List.mem_append] at hm ⊢
  tauto

/-- Claim C1 (amended): Provided task costs are nonnegative, task ids are unique
across the pools, and `setAttentionCoefficient` is not used to lower the
coefficient below the current active total, every scheduler operation
preserves the capacity bound `Σ cost over Active ≤ C`.  The original claim —
preservation under `setAttentionCoefficient` with *any* argument — is refuted
by the counterexample theorem: lowering `C` below the active total breaks the
bound, because the setter stores any value without demoting active tasks. -/
theorem c1_capacity_preserved (s : SchedState) (op : SchedOp)
    (hInv : totalCost s.active ≤ s.C)
    (hIds : IdsWF s)
    (hcost : ∀ t ∈ s.active, 0 ≤ t.cost)
    (hadd : ∀ i c d, op = SchedOp.addTask i c d → i ∉ ids (allTasks s))
    (hset : ∀ v, op = SchedOp.setAttentionCoefficient v →
      totalCost s.active ≤ v ∨ v = s.C) :
    totalCost (step s op).active ≤ (step s op).C := by
  have hFW : FillWF s := hIds.fillWF
  cases op with
  | addTask i c d =>
    simp only [step]
    have hx : i ∉ ids s.active ++ ids s.resumed ++ ids s.pending := by
      intro hmem
      exact hadd i c d rfl (mem_W_of_mem_fill hmem)
    have hFW' : FillWF { s with
        pending := s.pending ++ [{ id := i, cost := c, duration := d, elapsedMs := 0 }] } := by
      simp only [FillWF, ids_append]
      have := nodup_append_insert_last hFW hx
      simpa [ids] using this
    have h := tryFillPool_inv _ hFW' (by simpa using hInv)
    simpa using h
  | pauseTask i =>
    simp only [step]
    cases hf : s.active.find? (fun t => t.id = i) with
    | none => exact hInv
    | some t =>
      have hsubA : List.Sublist (ids (removeFirst s.active i)) (ids s.active) := by
        rw [ids_removeFirst]
        exact List.erase_sublist _ _
      have hFW' : FillWF { s with
          active := removeFirst s.active i, paused := mapSet s.paused t } := by
        simp only [FillWF]
        exact nodup_append_sub3 hFW hsubA (List.Sublist.refl _) (List.Sublist.refl _)
      have hInv' : totalCost (removeFirst s.active i) ≤ s.C :=
        le_trans (totalCost_removeFirst_le hcost i) hInv
      have h := tryFillPool_inv _ hFW' (by simpa using hInv')
      simpa using h
  | resumeTask i =>
    simp only [step]
    cases hf : s.paused.find? (fun t => t.id = i) with
    | none => exact hInv
    | some t =>
      have ht : t ∈ s.paused := List.mem_of_find?_eq_some hf
      have hx0 : t.id ∈ ids s.paused := List.mem_map_of_mem Task.id ht
      have hx : t.id ∉ ids s.active ++ ids s.resumed ++ ids s.pending := by
        have hnm := hIds.not_mem_of_mem_paused hx0
        intro hmem
        exact hnm (by simpa [List.append_assoc] using hmem)
      have hFW' : FillWF { s with
          paused := removeFirst s.paused i, resumed := s.resumed ++ [t] } := by
        simp only [FillWF, ids_append]
        have := nodup_append_insert_mid hFW hx
        simpa [ids] using this
      have h := tryFillPool_inv _ hFW' (by simpa using hInv)
      simpa using h
  | pauseResumedTask i =>
    simp only [step]
    cases hf : s.resumed.find? (fun t => t.id = i) with
    | none => exact hInv
    | some t => simpa using hInv
  | cancelTask i =>
    simp only [step]
    by_cases hac : s.active.any (fun t => t.id = i) = true
    · rw [if_pos hac]
      have hsubA : List.Sublist (ids (removeFirst s.active i)) (ids s.active) := by
        rw [ids_removeFirst]
        exact List.erase_sublist _ _
      have hFW' : FillWF { s with active := removeFirst s.active i } := by
        simp only [FillWF]
        exact nodup_append_sub3 hFW hsubA (List.Sublist.refl _) (List.Sublist.refl _)
      have hInv' : totalCost (removeFirst s.active i) ≤ s.C :=
        le_trans (totalCost_removeFirst_le hcost i) hInv
      have h := tryFillPool_inv _ hFW' (by simpa using hInv')
      simpa using h
    · rw [if_neg hac]
      simpa using hInv
  | completeTask i =>
    simp only [step]
    by_cases hac : s.active.any (fun t => t.id = i) = true
    · rw [if_pos hac]
      have hsubA : List.Sublist (ids (removeFirst s.active i)) (ids s.active) := by
        rw [ids_removeFirst]
        exact List.erase_sublist _ _
      have hFW' : FillWF { s with active := removeFirst s.active i } := by
        simp only [FillWF]
        exact nodup_append_sub3 hFW hsubA (List.Sublist.refl _) (List.Sublist.refl _)
      have hInv' : totalCost (removeFirst s.active i) ≤ s.C :=
        le_trans (totalCost_removeFirst_le hcost i) hInv
      have h := tryFillPool_inv _ hFW' (by simpa using hInv')
      simpa using h
    · rw [if_neg hac]
      exact hInv
  | setAttentionCoefficient v =>
    simp only [step]
    by_cases hv : s.C = v
    · rw [if_pos hv]
      exact hInv
    · rw [if_neg hv]
      rcases hset v rfl with hle | heq
      · have hFW' : FillWF { s with C := v } := hFW
        by_cases hgt : v > s.C
        · rw [if_pos hgt]
          have h := tryFillPool_inv { s with C := v } hFW' (by simpa using hle)
          simpa using h
        · rw [if_neg hgt]
          simpa using hle
      · exact absurd heq.symm hv
  | tryFillPool =>
    simp only [step]
    exact tryFillPool_inv s hFW hInv
  | greedyPassFire =>
    simp only [step]
    exact greedyPass_inv s hFW hInv
  | tick delta =>
    simp only [step]
    have hfold := foldl_removeFirst_sublist (tickStore delta s.active).2
      (tickStore delta s.active).1
    have hids1 : ids (tickStore delta s.active).1 = ids s.active := by
      unfold tickStore
      split
      · rfl
      · exact ids_tickMap delta s.active
    have htot1 : totalCost (tickStore delta s.active).1 = totalCost s.active := by
      unfold tickStore
      split
      · rfl
      · exact totalCost_tickMap delta s.active
    have hcost1 : ∀ t ∈ (tickStore delta s.active).1, 0 ≤ t.cost := by
      unfold tickStore
      split
      · exact hcost
      · intro t ht
        obtain ⟨u, hu, huv⟩ := List.mem_map.mp ht
        have := hcost u hu
        rw [← huv]
        exact this
    have hInv' : totalCost ((tickStore delta s.active).2.foldl
        (fun acc id => removeFirst acc id) (tickStore delta s.active).1) ≤ s.C :=
      le_trans (totalCost_sublist_le hfold hcost1) (htot1.le.trans hInv)
    have hsub : List.Sublist (ids ((tickStore delta s.active).2.foldl
        (fun acc id => removeFirst acc id) (tickStore delta s.active).1)) (ids s.active) := by
      rw [← hids1]
      exact hfold.map Task.id
    have hFW' : FillWF { s with active := ((tickStore delta s.active).2.foldl
        (fun acc id => removeFirst acc id) (tickStore delta s.active).1) } := by
      simp only [FillWF]
      exact nodup_append_sub3 hFW hsub (List.Sublist.refl _) (List.Sublist.refl _)
    by_cases hemp : (tickStore delta s.active).2.isEmpty = true
    · rw [if_pos hemp]
      exact hInv'
    · rw [if_neg hemp]
      have h := tryFillPool_inv _ hFW' (by simpa using hInv')
      simpa using h

/-! ## Claim theorems -/

/-- Claim C1 (counterexample): The claim "every operation — including
`setAttentionCoefficient` with any argument — preserves `Σ cost ≤ C`" is
false: from the initial state, `setAttentionCoefficient 8` followed by
`addTask` of a cost-8 task reaches a state satisfying the bound (8 ≤ 8), and
then `setAttentionCoefficient 4` yields `Σ cost = 8 > C = 4`. -/
theorem c1_counterexample :
    (totalCost (step (step initState (.setAttentionCoefficient 8))
        (.addTask 1 8 1000)).active ≤
      (step (step initState (.setAttentionCoefficient 8)) (.addTask 1 8 1000)).C)
    ∧ ¬ (totalCost (step (step (step initState (.setAttentionCoefficient 8))
          (.addTask 1 8 1000)) (.setAttentionCoefficient 4)).active ≤
        (step (step (step initState (.setAttentionCoefficient 8)) (.addTask 1 8 1000))
          (.setAttentionCoefficient 4)).C) := by
  constructor <;>
    norm_num [step, tryFillPoolStep, fillLoop, canFit, freeAttention, usedAttention,
      totalCost, mapSet, removeFirst, initState, MINIMAL_COST]

/-- Witness for the amended C1 theorem at a concrete input. -/
theorem c1_witness :
    totalCost (step (step (step initState (.setAttentionCoefficient 8))
        (.addTask 1 8 1000)) (.setAttentionCoefficient 9)).active ≤
      (step (step (step initState (.setAttentionCoefficient 8)) (.addTask 1 8 1000))
        (.setAttentionCoefficient 9)).C :=
  c1_capacity_preserved _ (.setAttentionCoefficient 9)
    (by norm_num [step, tryFillPoolStep, fillLoop, canFit, freeAttention, usedAttention,
      totalCost, mapSet, removeFirst, initState, MINIMAL_COST])
    (by unfold IdsWF
        norm_num [step, tryFillPoolStep, fillLoop, canFit, freeAttention, usedAttention,
          totalCost, mapSet, removeFirst, initState, MINIMAL_COST, allTasks, ids])
    (by norm_num [step, tryFillPoolStep, fillLoop, canFit, freeAttention, usedAttention,
      totalCost, mapSet, removeFirst, initState, MINIMAL_COST])
    (fun i c d h => SchedOp.noConfusion h)
    (fun v h => by
      cases h
      left
      norm_num [step, tryFillPoolStep, fillLoop, canFit, freeAttention, usedAttention,
        totalCost, mapSet, removeFirst, initState, MINIMAL_COST])

/-- Claim C2: A sequential admission pass admits a prefix of `Resumed` and then
a prefix of `Pending` (FIFO within each queue), every admitted task satisfies
`canFit` at its admission moment, and whenever some pending task is admitted
the head of the remaining `Resumed` queue (if any) did not fit at the point
the pending phase started. -/
theorem c2_sequential_admission (s : SchedState) (hIds : IdsWF s) :
    (∃ adm rest adm2 rest2,
      s.resumed = adm ++ rest ∧ s.pending = adm2 ++ rest2 ∧
      (tryFillPoolStep s).active = s.active ++ adm ++ adm2 ∧
      (tryFillPoolStep s).resumed = rest ∧
      (tryFillPoolStep s).pending = rest2 ∧
      chainFits s.C s.active adm ∧
      chainFits s.C (s.active ++ adm) adm2 ∧
      (∀ h ∈ rest.head?,
        canFit s.C (totalCost (s.active ++ adm)) h.cost = false ∨ adm2 = [])) ∧
    (∀ total extra cost : ℚ, 0 ≤ extra →
      canFit s.C (total + extra) cost = true → canFit s.C total cost = true) := by
  constructor
  · obtain ⟨adm, rest, adm2, rest2, hq, hq2, hact, hres, hpen, _, _, hchain, hchain2, hstop⟩ :=
      tryFillPool_spec s hIds.fillWF
    exact ⟨adm, rest, adm2, rest2, hq, hq2, hact, hres, hpen, hchain, hchain2, hstop⟩
  · intro total extra cost hextra h
    obtain ⟨hC, hle⟩ := canFit_imp h
    exact canFit_of_le hC (by linarith)

/-- Witness for C2 at a concrete input. -/
theorem c2_witness :
    ∃ adm rest adm2 rest2,
      (SchedState.mk 8 [] [] [⟨1, 4, 100, 0⟩] [⟨2, 8, 100, 0⟩, ⟨3, 1, 50, 0⟩]
        false false).resumed = adm ++ rest ∧
      (SchedState.mk 8 [] [] [⟨1, 4, 100, 0⟩] [⟨2, 8, 100, 0⟩, ⟨3, 1, 50, 0⟩]
        false false).pending = adm2 ++ rest2 ∧
      (tryFillPoolStep (SchedState.mk 8 [] [] [⟨1, 4, 100, 0⟩]
        [⟨2, 8, 100, 0⟩, ⟨3, 1, 50, 0⟩] false false)).active =
        (SchedState.mk 8 [] [] [⟨1, 4, 100, 0⟩] [⟨2, 8, 100, 0⟩, ⟨3, 1, 50, 0⟩]
          false false).active ++ adm ++ adm2 ∧
      (tryFillPoolStep (SchedState.mk 8 [] [] [⟨1, 4, 100, 0⟩]
        [⟨2, 8, 100, 0⟩, ⟨3, 1, 50, 0⟩] false false)).resumed = rest ∧
      (tryFillPoolStep (SchedState.mk 8 [] [] [⟨1, 4, 100, 0⟩]
        [⟨2, 8, 100, 0⟩, ⟨3, 1, 50, 0⟩] false false)).pending = rest2 ∧
      chainFits (SchedState.mk 8 [] [] [⟨1, 4, 100, 0⟩] [⟨2, 8, 100, 0⟩, ⟨3, 1, 50, 0⟩]
        false false).C (SchedState.mk 8 [] [] [⟨1, 4, 100, 0⟩]
        [⟨2, 8, 100, 0⟩, ⟨3, 1, 50, 0⟩] false false).active adm ∧
      chainFits (SchedState.mk 8 [] [] [⟨1, 4, 100, 0⟩] [⟨2, 8, 100, 0⟩, ⟨3, 1, 50, 0⟩]
        false false).C ((SchedState.mk 8 [] [] [⟨1, 4, 100, 0⟩]
        [⟨2, 8, 100, 0⟩, ⟨3, 1, 50, 0⟩] false false).active ++ adm) adm2 ∧
      (∀ h ∈ rest.head?,
        canFit (SchedState.mk 8 [] [] [⟨1, 4, 100, 0⟩] [⟨2, 8, 100, 0⟩, ⟨3, 1, 50, 0⟩]
          false false).C
          (totalCost ((SchedState.mk 8 [] [] [⟨1, 4, 100, 0⟩]
            [⟨2, 8, 100, 0⟩, ⟨3, 1, 50, 0⟩] false false).active ++ adm)) h.cost = false ∨
        adm2 = []) :=
  (c2_sequential_admission
    (SchedState.mk 8 [] [] [⟨1, 4, 100, 0⟩] [⟨2, 8, 100, 0⟩, ⟨3, 1, 50, 0⟩] false false)
    (by unfold IdsWF
        decide)).1

/-! ## Step equations of the live greedy loop -/

theorem greedyLoopLive_step_fit {C : ℚ} {i : ℕ} {queue active : List Task}
    (h : i < queue.length)
    (hfit : canFit C (totalCost active) (queue.get ⟨i, h⟩).cost = true) :
    greedyLoopLive C i queue active =
      greedyLoopLive C (i + 1) (removeFirst queue (queue.get ⟨i, h⟩).id)
        (mapSet active (queue.get ⟨i, h⟩)) := by
  rw [greedyLoopLive]
  rw [dif_pos h, if_pos hfit]

theorem greedyLoopLive_step_nofit {C : ℚ} {i : ℕ} {queue active : List Task}
    (h : i < queue.length)
    (hfit : ¬ canFit C (totalCost active) (queue.get ⟨i, h⟩).cost = true) :
    greedyLoopLive C i queue active = greedyLoopLive C (i + 1) queue active := by
  rw [greedyLoopLive]
  rw [dif_pos h, if_neg hfit]

theorem greedyLoopLive_done {C : ℚ} {i : ℕ} {queue active : List Task}
    (h : ¬ i < queue.length) :
    greedyLoopLive C i queue active = (queue, active) := by
  rw [greedyLoopLive]
  rw [dif_neg h]

/-- Claim C8 (code bug): When the scheduled greedy pass fires on
`Resumed = [t₁(cost 1), t₂(cost 1)]` with `C = 8` and an empty active pool,
both tasks fit, yet the pass admits only `t₁` and leaves `t₂` in the queue
without examining it: the `for…of` loop iterates the live array that
`remove` splices, so the element after each admitted task is skipped.  This
contradicts the claim (and the design notes, which iterate a snapshot copy)
that every fitting task is admitted. -/
theorem c8_greedy_skips_fitting_task :
    (greedyPassStep (SchedState.mk 8 [] [] [⟨1, 1, 100, 0⟩, ⟨2, 1, 100, 0⟩] []
        true true)).active = [⟨1, 1, 100, 0⟩] ∧
    (greedyPassStep (SchedState.mk 8 [] [] [⟨1, 1, 100, 0⟩, ⟨2, 1, 100, 0⟩] []
        true true)).resumed = [⟨2, 1, 100, 0⟩] ∧
    canFit 8 (totalCost [(⟨1, 1, 100, 0⟩ : Task)]) (1 : ℚ) = true := by
  have hfit0 : canFit 8 (totalCost ([] : List Task)) (1 : ℚ) = true := by
    norm_num [canFit, freeAttention, usedAttention, totalCost]
  have e1 : greedyLoopLive 8 0 [(⟨1, 1, 100, 0⟩ : Task), ⟨2, 1, 100, 0⟩] [] =
      ([(⟨2, 1, 100, 0⟩ : Task)], [(⟨1, 1, 100, 0⟩ : Task)]) := by
    rw [greedyLoopLive_step_fit (by norm_num) (by
      norm_num [canFit, freeAttention, usedAttention, totalCost])]
    have er : removeFirst [(⟨1, 1, 100, 0⟩ : Task), ⟨2, 1, 100, 0⟩]
        (([(⟨1, 1, 100, 0⟩ : Task), ⟨2, 1, 100, 0⟩].get ⟨0, by norm_num⟩).id) =
        [(⟨2, 1, 100, 0⟩ : Task)] := by
      simp [removeFirst, List.eraseP]
    have em : mapSet [] ([(⟨1, 1, 100, 0⟩ : Task), ⟨2, 1, 100, 0⟩].get ⟨0, by norm_num⟩) =
        [(⟨1, 1, 100, 0⟩ : Task)] := by
      simp [mapSet]
    rw [er, em]
    exact greedyLoopLive_done (by norm_num)
  have e2 : greedyLoopLive 8 0 ([] : List Task) [(⟨1, 1, 100, 0⟩ : Task)] =
      ([], [(⟨1, 1, 100, 0⟩ : Task)]) := greedyLoopLive_done (by norm_num)
  have hfit1 : canFit 8 (totalCost [(⟨1, 1, 100, 0⟩ : Task)]) (1 : ℚ) = true := by
    norm_num [canFit, freeAttention, usedAttention, totalCost]
  have eres : greedyPassStep (SchedState.mk 8 [] [] [⟨1, 1, 100, 0⟩, ⟨2, 1, 100, 0⟩] []
      true true) = SchedState.mk 8 [⟨1, 1, 100, 0⟩] [] [⟨2, 1, 100, 0⟩] [] true false := by
    unfold greedyPassStep
    rw [if_neg (by simpa [MINIMAL_COST] using hfit0)]
    simp only [e1]
    rw [if_neg (by simpa [MINIMAL_COST] using hfit1)]
    simp [e2]
  exact ⟨by rw [eres], by rw [eres], hfit1⟩

/-- Claim C9 (counterexample): `setAttentionCoefficient (-1)` is *not*
rejected: from a state with coefficient 8, it stores `-1`. -/
theorem c9_counterexample :
    (step initState (.setAttentionCoefficient 8)).C = 8 ∧
    (step (step initState (.setAttentionCoefficient 8))
      (.setAttentionCoefficient (-1))).C = -1 := by
  constructor <;>
    norm_num [step, tryFillPoolStep, fillLoop, canFit, freeAttention, usedAttention,
      totalCost, mapSet, removeFirst, initState, MINIMAL_COST]

/-- Claim C9 (amended): `setAttentionCoefficient` performs no validation: any
value strictly below the current coefficient (in particular any negative
value when the coefficient is nonnegative) is stored as-is; the pools are
untouched and no admission pass runs (the call is total, hence never
crashes), but the stored coefficient does change. -/
theorem c9_set_coefficient_lower_stored (s : SchedState) (v : ℚ) (hv : v < s.C) :
    step s (.setAttentionCoefficient v) = { s with C := v } := by
  simp only [step]
  rw [if_neg (ne_of_gt hv)]
  rw [if_neg (lt_asymm hv)]

/-- Witness for the amended C9 theorem at a concrete input. -/
theorem c9_witness :
    step (SchedState.mk 8 [] [] [] [] false false) (.setAttentionCoefficient (-1)) =
      SchedState.mk (-1) [] [] [] [] false false :=
  c9_set_coefficient_lower_stored (SchedState.mk 8 [] [] [] [] false false) (-1)
    (by norm_num)

/-! ## Lemmas for time progression (tick) and pool membership -/

theorem foldl_removeFirst_cons {L : List ℕ} {t : Task} {l : List Task}
    (h : ∀ x ∈ L, x ≠ t.id) :
    L.foldl (fun acc id => removeFirst acc id) (t :: l) =
      t :: L.foldl (fun acc id => removeFirst acc id) l := by
  induction L generalizing l with
  | nil => rfl
  | cons x L' ih =>
    simp only [List.foldl_cons]
    have hx : x ≠ t.id := h x (by simp)
    have hrm : removeFirst (t :: l) x = t :: removeFirst l x := by
      simp [removeFirst, List.eraseP_cons, Ne.symm hx]
    rw [hrm]
    exact ih (fun y hy => h y (by simp [hy]))

/-- Completing exactly the tasks whose ids were collected by a filter removes
exactly the filtered tasks (given unique ids). -/
theorem foldl_removeFirst_filter (p : Task → Bool) :
    ∀ l : List Task, (ids l).Nodup →
      ((l.filter p).map Task.id).foldl (fun acc id => removeFirst acc id) l =
        l.filter (fun t => !(p t)) := by
  intro l
  induction l with
  | nil => intro _; rfl
  | cons t rest ih =>
    intro hnd
    have hnd' : (t.id :: ids rest).Nodup := by rw [← ids_cons]; exact hnd
    obtain ⟨hni, hrest⟩ := List.nodup_cons.mp hnd'
    by_cases hp : p t = true
    · rw [List.filter_cons_of_pos hp, List.map_cons, List.foldl_cons]
      have hrm : removeFirst (t :: rest) t.id = rest := by
        simp [removeFirst, List.eraseP_cons]
      rw [hrm, ih hrest, List.filter_cons_of_neg (by simp [hp])]
    · rw [List.filter_cons_of_neg (by simp [hp])]
      have hmem : ∀ x ∈ (rest.filter p).map Task.id, x ≠ t.id := by
        intro x hx
        obtain ⟨u, hu, huv⟩ := List.mem_map.mp hx
        have hur : u ∈ rest := List.mem_of_mem_filter hu
        intro hxeq
        exact hni (by
          rw [← huv] at hxeq
          exact hxeq ▸ List.mem_map_of_mem Task.id hur)
      rw [foldl_removeFirst_cons hmem, ih hrest,
        List.filter_cons_of_pos (by simp [hp])]

/-- Removing the completed ids from the updated active pool keeps exactly the
tasks that have not yet reached their duration. -/
theorem tick_fold_filter (s : SchedState) (delta : ℚ) (hpos : 0 < delta)
    (hndA : (ids s.active).Nodup) :
    (tickStore delta s.active).2.foldl (fun acc id => removeFirst acc id)
      (tickStore delta s.active).1 =
    (s.active.map (fun t => { t with elapsedMs := t.elapsedMs + delta })).filter
      (fun t => decide (t.elapsedMs < t.duration)) := by
  have hδ : ¬ delta ≤ 0 := not_le.mpr hpos
  have ht1 : (tickStore delta s.active).1 =
      s.active.map (fun t => { t with elapsedMs := t.elapsedMs + delta }) := by
    simp [tickStore, hδ]
  have ht2 : (tickStore delta s.active).2 =
      ((s.active.map (fun t => { t with elapsedMs := t.elapsedMs + delta })).filter
        (fun t => t.duration ≤ t.elapsedMs)).map Task.id := by
    simp [tickStore, hδ]
  rw [ht1, ht2]
  have hnd' : (ids (s.active.map
      (fun t => { t with elapsedMs := t.elapsedMs + delta }))).Nodup := by
    rw [ids_tickMap]
    exact hndA
  rw [foldl_removeFirst_filter (fun t => t.duration ≤ t.elapsedMs) _ hnd']
  refine List.filter_congr ?_
  intro a _
  by_cases h : a.duration ≤ a.elapsedMs
  · simp [h, not_lt.mpr h]
  · simp [h, not_le.mp h]

/-- All task values of the result of an admission pass come from the state. -/
theorem mem_allTasks_fill {s : SchedState} (hFW : FillWF s) {t : Task}
    (ht : t ∈ allTasks (tryFillPoolStep s)) : t ∈ allTasks s := by
  obtain ⟨adm, rest, adm2, rest2, hq, hq2, hact, hres, hpen, hpau, _, _, _, _⟩ :=
    tryFillPool_spec s hFW
  simp only [allTasks, List.mem_append] at ht ⊢
  have hadm : ∀ u : Task, u ∈ adm → u ∈ s.resumed := by
    intro u hu; rw [hq]; exact List.mem_append.mpr (Or.inl hu)
  have hrest : ∀ u : Task, u ∈ rest → u ∈ s.resumed := by
    intro u hu; rw [hq]; exact List.mem_append.mpr (Or.inr hu)
  have hadm2 : ∀ u : Task, u ∈ adm2 → u ∈ s.pending := by
    intro u hu; rw [hq2]; exact List.mem_append.mpr (Or.inl hu)
  have hrest2 : ∀ u : Task, u ∈ rest2 → u ∈ s.pending := by
    intro u hu; rw [hq2]; exact List.mem_append.mpr (Or.inr hu)
  rw [hact, hres, hpen, hpau] at ht
  simp only [List.mem_append] at ht
  rcases ht with ((((h | h) | h) | h) | h) | h
  · exact Or.inl (Or.inl (Or.inl h))
  · exact Or.inl (Or.inr (hadm _ h))
  · exact Or.inr (hadm2 _ h)
  · exact Or.inl (Or.inl (Or.inr h))
  · exact Or.inl (Or.inr (hrest _ h))
  · exact Or.inr (hrest2 _ h)

/-- Membership bound for the live greedy loop. -/
theorem greedyLoopLive_mem (C : ℚ) :
    ∀ (i : ℕ) (queue active : List Task),
      (∀ t ∈ (greedyLoopLive C i queue active).1, t ∈ queue) ∧
      (∀ t ∈ (greedyLoopLive C i queue active).2, t ∈ active ∨ t ∈ queue) := by
  refine greedyLoopLive.induct C
    (fun i queue active =>
      (∀ t ∈ (greedyLoopLive C i queue active).1, t ∈ queue) ∧
      (∀ t ∈ (greedyLoopLive C i queue active).2, t ∈ active ∨ t ∈ queue)) ?_ ?_ ?_
  · intro i queue active h hfit ih
    rw [greedyLoopLive_step_fit h hfit]
    obtain ⟨ih1, ih2⟩ := ih
    constructor
    · intro t ht
      exact mem_removeFirst (ih1 t ht)
    · intro t ht
      rcases ih2 t ht with hm | hm
      · rcases mem_mapSet hm with hm' | hm'
        · exact Or.inl hm'
        · exact Or.inr (hm' ▸ queue.get_mem i h)
      · exact Or.inr (mem_removeFirst hm)
  · intro i queue active h hfit ih
    rw [greedyLoopLive_step_nofit h hfit]
    exact ih
  · intro i queue active h
    rw [greedyLoopLive_done h]
    exact ⟨fun t ht => ht, fun t ht => Or.inl ht⟩

/-- All task values of the result of a greedy pass come from the state. -/
theorem mem_allTasks_greedy {s : SchedState} {t : Task}
    (ht : t ∈ allTasks (greedyPassStep s)) : t ∈ allTasks s := by
  have hm1 := greedyLoopLive_mem s.C 0 s.resumed s.active
  have hm2 := greedyLoopLive_mem s.C 0 s.pending (greedyLoopLive s.C 0 s.resumed s.active).2
  unfold greedyPassStep at ht
  by_cases h0 : canFit s.C (totalCost s.active) MINIMAL_COST = true
  · rw [if_neg (by simpa using h0)] at ht
    simp only at ht
    by_cases h1 :
        canFit s.C (totalCost (greedyLoopLive s.C 0 s.resumed s.active).2) MINIMAL_COST = true
    · rw [if_neg (by simpa using h1)] at ht
      simp only [allTasks, List.mem_append] at ht ⊢
      rcases ht with ((h | h) | h) | h
      · rcases hm2.2 t h with h' | h'
        · rcases hm1.2 t h' with h'' | h''
          · exact Or.inl (Or.inl (Or.inl h''))
          · exact Or.inl (Or.inr h'')
        · exact Or.inr h'
      · exact Or.inl (Or.inl (Or.inr h))
      · exact Or.inl (Or.inr (hm1.1 t h))
      · exact Or.inr (hm2.1 t h)
    · rw [if_pos (by simpa using h1)] at ht
      simp only [allTasks, List.mem_append] at ht ⊢
      rcases ht with ((h | h) | h) | h
      · rcases hm1.2 t h with h' | h'
        · exact Or.inl (Or.inl (Or.inl h'))
        · exact Or.inl (Or.inr h')
      · exact Or.inl (Or.inl (Or.inr h))
      · exact Or.inl (Or.inr (hm1.1 t h))
      · exact Or.inr h
  · rw [if_pos (by simpa using h0)] at ht
    exact ht

/-- Exact shape of a tick operation: every active task advances by `delta`,
the tasks that reached `duration` (and only those) are removed, and the
subsequent admission pass appends FIFO prefixes of the queues. -/
theorem tick_shape (s : SchedState) (delta : ℚ) (hpos : 0 < delta) (hIds : IdsWF s) :
    ∃ adm rest adm2 rest2,
      s.resumed = adm ++ rest ∧ s.pending = adm2 ++ rest2 ∧
      (step s (SchedOp.tick delta)).active =
        ((s.active.map (fun t => { t with elapsedMs := t.elapsedMs + delta })).filter
          (fun t => decide (t.elapsedMs < t.duration))) ++ adm ++ adm2 ∧
      (step s (SchedOp.tick delta)).resumed = rest ∧
      (step s (SchedOp.tick delta)).pending = rest2 ∧
      (step s (SchedOp.tick delta)).paused = s.paused := by
  have hW : (ids s.active ++ (ids s.paused ++ (ids s.resumed ++ ids s.pending))).Nodup := by
    simpa [IdsWF, allTasks] using hIds
  have hndA : (ids s.active).Nodup := hW.of_append_left
  have hfold := tick_fold_filter s delta hpos hndA
  by_cases hemp : (tickStore delta s.active).2.isEmpty = true
  · refine ⟨[], s.resumed, [], s.pending, by simp, by simp, ?_, ?_, ?_, ?_⟩
    · simp only [step]
      rw [if_pos hemp]
      simp [hfold]
    · simp only [step]
      rw [if_pos hemp]
    · simp only [step]
      rw [if_pos hemp]
    · simp only [step]
      rw [if_pos hemp]
  · have hsubF : List.Sublist (ids ((tickStore delta s.active).2.foldl
        (fun acc id => removeFirst acc id) (tickStore delta s.active).1)) (ids s.active) := by
      have hids1 : ids (tickStore delta s.active).1 = ids s.active := by
        unfold tickStore
        split
        · rfl
        · exact ids_tickMap delta s.active
      rw [← hids1]
      exact (foldl_removeFirst_sublist _ _).map Task.id
    have hFW : FillWF s := hIds.fillWF
    have hFW' : FillWF { s with active := ((tickStore delta s.active).2.foldl
        (fun acc id => removeFirst acc id) (tickStore delta s.active).1) } := by
      simp only [FillWF]
      exact nodup_append_sub3 hFW hsubF (List.Sublist.refl _) (List.Sublist.refl _)
    obtain ⟨adm, rest, adm2, rest2, hq, hq2, hact, hres, hpen, hpau, _, _, _, _⟩ :=
      tryFillPool_spec _ hFW'
    refine ⟨adm, rest, adm2, rest2, hq, hq2, ?_, ?_, ?_, ?_⟩
    · simp only [step]
      rw [if_neg hemp, hact]
      simp [hfold]
    · simp only [step]
      rw [if_neg hemp]
      exact hres
    · simp only [step]
      rw [if_neg hemp]
      exact hpen
    · simp only [step]
      rw [if_neg hemp]
      exact hpau

/-- Every scheduler operation preserves Invariant S1 (`0 ≤ elapsedMs ≤
duration` for every task of every pool), provided new tasks carry a
nonnegative duration and a fresh id. -/
theorem tasksWF_step (s : SchedState) (op : SchedOp) (hWF : TasksWF s) (hIds : IdsWF s)
    (hadd : ∀ i c d, op = SchedOp.addTask i c d → i ∉ ids (allTasks s) ∧ 0 ≤ d) :
    TasksWF (step s op) := by
  have hFW : FillWF s := hIds.fillWF
  cases op with
  | addTask i c d =>
    simp only [step]
    obtain ⟨hfresh, hdur⟩ := hadd i c d rfl
    have hx : i ∉ ids s.active ++ ids s.resumed ++ ids s.pending :=
      fun hmem => hfresh (mem_W_of_mem_fill hmem)
    have hFW' : FillWF { s with
        pending := s.pending ++ [{ id := i, cost := c, duration := d, elapsedMs := 0 }] } := by
      simp only [FillWF, ids_append]
      have := nodup_append_insert_last hFW hx
      simpa [ids] using this
    intro t ht
    have ht' := mem_allTasks_fill hFW' ht
    simp only [allTasks, List.mem_append] at ht'
    rcases ht' with ((h | h) | h) | h | h
    · exact hWF t (by simp [allTasks, h])
    · exact hWF t (by simp [allTasks, h])
    · exact hWF t (by simp [allTasks, h])
    · exact hWF t (by simp [allTasks, h])
    · have : t = { id := i, cost := c, duration := d, elapsedMs := 0 } := by simpa using h
      rw [this]
      exact ⟨le_refl 0, hdur⟩
  | pauseTask i =>
    simp only [step]
    cases hf : s.active.find? (fun t => t.id = i) with
    | none => exact hWF
    | some t0 =>
      have ht0 : t0 ∈ s.active := List.mem_of_find?_eq_some hf
      have hsubA : List.Sublist (ids (removeFirst s.active i)) (ids s.active) := by
        rw [ids_removeFirst]
        exact List.erase_sublist _ _
      have hFW' : FillWF { s with
          active := removeFirst s.active i, paused := mapSet s.paused t0 } := by
        simp only [FillWF]
        exact nodup_append_sub3 hFW hsubA (List.Sublist.refl _) (List.Sublist.refl _)
      intro t ht
      have ht' := mem_allTasks_fill hFW' ht
      simp only [allTasks, List.mem_append] at ht'
      rcases ht' with ((h | h) | h) | h
      · exact hWF t (by simp [allTasks, mem_removeFirst h])
      · rcases mem_mapSet h with h' | h'
        · exact hWF t (by simp [allTasks, h'])
        · exact hWF t (by simp [allTasks, h' ▸ ht0])
      · exact hWF t (by simp [allTasks, h])
      · exact hWF t (by simp [allTasks, h])
  | resumeTask i =>
    simp only [step]
    cases hf : s.paused.find? (fun t => t.id = i) with
    | none => exact hWF
    | some t0 =>
      have ht0 : t0 ∈ s.paused := List.mem_of_find?_eq_some hf
      have hx0 : t0.id ∈ ids s.paused := List.mem_map_of_mem Task.id ht0
      have hx : t0.id ∉ ids s.active ++ ids s.resumed ++ ids s.pending := by
        have hnm := hIds.not_mem_of_mem_paused hx0
        intro hmem
        exact hnm (by simpa [List.append_assoc] using hmem)
      have hFW' : FillWF { s with
          paused := removeFirst s.paused i, resumed := s.resumed ++ [t0] } := by
        simp only [FillWF, ids_append]
        have := nodup_append_insert_mid hFW hx
        simpa [ids] using this
      intro t ht
      have ht' := mem_allTasks_fill hFW' ht
      simp only [allTasks, List.mem_append] at ht'
      rcases ht' with ((h | h) | h | h) | h
      · exact hWF t (by simp [allTasks, h])
      · exact hWF t (by simp [allTasks, mem_removeFirst h])
      · exact hWF t (by simp [allTasks, h])
      · have : t = t0 := by simpa using h
        exact hWF t (by simp [allTasks, this ▸ ht0])
      · exact hWF t (by simp [allTasks, h])
  | pauseResumedTask i =>
    simp only [step]
    cases hf : s.resumed.find? (fun t => t.id = i) with
    | none => exact hWF
    | some t0 =>
      have ht0 : t0 ∈ s.resumed := List.mem_of_find?_eq_some hf
      intro t ht
      simp only [allTasks, List.mem_append] at ht
      rcases ht with ((h | h) | h) | h
      · exact hWF t (by simp [allTasks, h])
      · rcases mem_mapSet h with h' | h'
        · exact hWF t (by simp [allTasks, h'])
        · exact hWF t (by simp [allTasks, h' ▸ ht0])
      · exact hWF t (by simp [allTasks, mem_removeFirst h])
      · exact hWF t (by simp [allTasks, h])
  | cancelTask i =>
    simp only [step]
    by_cases hac : s.active.any (fun t => t.id = i) = true
    · rw [if_pos hac]
      have hsubA : List.Sublist (ids (removeFirst s.active i)) (ids s.active) := by
        rw [ids_removeFirst]
        exact List.erase_sublist _ _
      have hFW' : FillWF { s with active := removeFirst s.active i } := by
        simp only [FillWF]
        exact nodup_append_sub3 hFW hsubA (List.Sublist.refl _) (List.Sublist.refl _)
      intro t ht
      have ht' := mem_allTasks_fill hFW' ht
      simp only [allTasks, List.mem_append] at ht'
      rcases ht' with ((h | h) | h) | h
      · exact hWF t (by simp [allTasks, mem_removeFirst h])
      · exact hWF t (by simp [allTasks, h])
      · exact hWF t (by simp [allTasks, h])
      · exact hWF t (by simp [allTasks, h])
    · rw [if_neg hac]
      intro t ht
      simp only [allTasks, List.mem_append] at ht
      rcases ht with ((h | h) | h) | h
      · exact hWF t (by simp [allTasks, h])
      · exact hWF t (by simp [allTasks, mem_removeFirst h])
      · exact hWF t (by simp [allTasks, mem_removeFirst h])
      · exact hWF t (by simp [allTasks, mem_removeFirst h])
  | completeTask i =>
    simp only [step]
    by_cases hac : s.active.any (fun t => t.id = i) = true
    · rw [if_pos hac]
      have hsubA : List.Sublist (ids (removeFirst s.active i)) (ids s.active) := by
        rw [ids_removeFirst]
        exact List.erase_sublist _ _
      have hFW' : FillWF { s with active := removeFirst s.active i } := by
        simp only [FillWF]
        exact nodup_append_sub3 hFW hsubA (List.Sublist.refl _) (List.Sublist.refl _)
      intro t ht
      have ht' := mem_allTasks_fill hFW' ht
      simp only [allTasks, List.mem_append] at ht'
      rcases ht' with ((h | h) | h) | h
      · exact hWF t (by simp [allTasks, mem_removeFirst h])
      · exact hWF t (by simp [allTasks, h])
      · exact hWF t (by simp [allTasks, h])
      · exact hWF t (by simp [allTasks, h])
    · rw [if_neg hac]
      exact hWF
  | setAttentionCoefficient v =>
    simp only [step]
    by_cases hv : s.C = v
    · rw [if_pos hv]
      exact hWF
    · rw [if_neg hv]
      by_cases hgt : v > s.C
      · rw [if_pos hgt]
        intro t ht
        exact hWF t (mem_allTasks_fill (show FillWF { s with C := v } from hFW) ht)
      · rw [if_neg hgt]
        exact hWF
  | tryFillPool =>
    simp only [step]
    intro t ht
    exact hWF t (mem_allTasks_fill hFW ht)
  | greedyPassFire =>
    simp only [step]
    intro t ht
    exact hWF t (mem_allTasks_greedy ht)
  | tick delta =>
    by_cases hpos : 0 < delta
    · obtain ⟨adm, rest, adm2, rest2, hq, hq2, hact, hres, hpen, hpau⟩ :=
        tick_shape s delta hpos hIds
      intro t ht
      simp only [allTasks, List.mem_append, hact, hres, hpen, hpau] at ht
      rcases ht with ((((h | h) | h) | h) | h) | h
      · obtain ⟨hin, hlt⟩ := List.mem_filter.mp h
        obtain ⟨u, hu, huv⟩ := List.mem_map.mp hin
        obtain ⟨hu0, _⟩ := hWF u (by simp [allTasks, hu])
        constructor
        · rw [← huv]
          simp only
          linarith
        · exact le_of_lt (by simpa using hlt)
      · exact hWF t (by simp [allTasks, hq ▸ List.mem_append.mpr (Or.inl h)])
      · exact hWF t (by simp [allTasks, hq2 ▸ List.mem_append.mpr (Or.inl h)])
      · exact hWF t (by simp [allTasks, h])
      · exact hWF t (by simp [allTasks, hq ▸ List.mem_append.mpr (Or.inr h)])
      · exact hWF t (by simp [allTasks, hq2 ▸ List.mem_append.mpr (Or.inr h)])
    · simp only [step]
      have ht0 : tickStore delta s.active = (s.active, []) := by
        simp [tickStore, not_lt.mp hpos]
      rw [ht0]
      simp only [List.foldl_nil, List.isEmpty_nil, if_pos]
      intro t ht
      exact hWF t ht

/-- Claim C5: Invariant S1 holds at every observable state: each operation
preserves `0 ≤ elapsedMs ≤ duration` for every task of every pool (given
fresh ids and nonnegative durations on task creation); and a tick with a
positive delta advances every active task by the delta and removes from
Active exactly the tasks whose updated `elapsedMs` reached their `duration`
(completion fires exactly then), the remaining operations of the tick being
ordinary queue admissions. -/
theorem c5_elapsed_invariant :
    (∀ (s : SchedState) (op : SchedOp), TasksWF s → IdsWF s →
      (∀ i c d, op = SchedOp.addTask i c d → i ∉ ids (allTasks s) ∧ 0 ≤ d) →
      TasksWF (step s op)) ∧
    (∀ (s : SchedState) (delta : ℚ), 0 < delta → IdsWF s →
      ∃ adm rest adm2 rest2,
        s.resumed = adm ++ rest ∧ s.pending = adm2 ++ rest2 ∧
        (step s (SchedOp.tick delta)).active =
          ((s.active.map (fun t => { t with elapsedMs := t.elapsedMs + delta })).filter
            (fun t => decide (t.elapsedMs < t.duration))) ++ adm ++ adm2 ∧
        (step s (SchedOp.tick delta)).resumed = rest ∧
        (step s (SchedOp.tick delta)).pending = rest2 ∧
        (step s (SchedOp.tick delta)).paused = s.paused) :=
  ⟨tasksWF_step, tick_shape⟩

/-- Witness for C5 at a concrete input. -/
theorem c5_witness :
    TasksWF (step (SchedState.mk 8 [⟨1, 1, 100, 40⟩] [] [] [] false false)
      (SchedOp.tick 50)) ∧
    ∃ adm rest adm2 rest2,
      (SchedState.mk 8 [⟨1, 1, 100, 40⟩] [] [] [] false false).resumed = adm ++ rest ∧
      (SchedState.mk 8 [⟨1, 1, 100, 40⟩] [] [] [] false false).pending = adm2 ++ rest2 ∧
      (step (SchedState.mk 8 [⟨1, 1, 100, 40⟩] [] [] [] false false)
          (SchedOp.tick 50)).active =
        (((SchedState.mk 8 [⟨1, 1, 100, 40⟩] [] [] [] false false).active.map
            (fun t => { t with elapsedMs := t.elapsedMs + 50 })).filter
          (fun t => decide (t.elapsedMs < t.duration))) ++ adm ++ adm2 ∧
      (step (SchedState.mk 8 [⟨1, 1, 100, 40⟩] [] [] [] false false)
          (SchedOp.tick 50)).resumed = rest ∧
      (step (SchedState.mk 8 [⟨1, 1, 100, 40⟩] [] [] [] false false)
          (SchedOp.tick 50)).pending = rest2 ∧
      (step (SchedState.mk 8 [⟨1, 1, 100, 40⟩] [] [] [] false false)
          (SchedOp.tick 50)).paused =
        (SchedState.mk 8 [⟨1, 1, 100, 40⟩] [] [] [] false false).paused :=
  ⟨c5_elapsed_invariant.1 (SchedState.mk 8 [⟨1, 1, 100, 40⟩] [] [] [] false false)
      (SchedOp.tick 50)
      (by
        intro t ht
        simp [allTasks] at ht
        subst ht
        norm_num)
      (by unfold IdsWF
          decide)
      (fun i c d h => SchedOp.noConfusion h),
    c5_elapsed_invariant.2 (SchedState.mk 8 [⟨1, 1, 100, 40⟩] [] [] [] false false) 50
      (by norm_num)
      (by unfold IdsWF
          decide)⟩

/-- Claim C7: While a generation job is in flight, a movement (non-zero)
request always overwrites the pending slot, whatever it holds; and when the
pending slot holds a movement direction, an arriving center (zero-vector)
request leaves it unchanged. -/
theorem c7_pending_priority :
    (∀ (p : Option DirectionVector) (d : DirectionVector), isZeroVector d = false →
      updatePendingDirection p d = some d) ∧
    (∀ m : DirectionVector, isZeroVector m = false →
      updatePendingDirection (some m) ⟨0, 0⟩ = some m) := by
  constructor
  · intro p d hd
    simp [updatePendingDirection, hd]
  · intro m hm
    simp [updatePendingDirection, isZeroVector]

/-- Witness for C7 at concrete inputs. -/
theorem c7_witness :
    updatePendingDirection (some ⟨0, 0⟩) ⟨1, 0⟩ = some ⟨1, 0⟩ ∧
    updatePendingDirection (some ⟨1, 0⟩) ⟨0, 0⟩ = some ⟨1, 0⟩ :=
  ⟨c7_pending_priority.1 (some ⟨0, 0⟩) ⟨1, 0⟩ (by decide),
   c7_pending_priority.2 ⟨1, 0⟩ (by decide)⟩

/-- Claim C4 (counterexample): `isTileConnected` is *not* "present or a
4-neighbour present": for a layer whose cell `(0,0)` is present (index 5) and
offset `(0,0)`, the query at world `(-1, 0)` has present neighbour `(0, 0)`,
so the spec's predicate is true, but the source returns `false` because the
local `X` coordinate is negative. -/
theorem c4_counterexample :
    isTileConnected (TileLayer.mk 2 2 (fun _ _ => 5)) 0 0 (-1) 0 = false ∧
    isTileConnectedSpec (TileLayer.mk 2 2 (fun _ _ => 5)) 0 0 (-1) 0 = true := by
  constructor <;> decide

/-- Claim C4 (amended): `isTileConnected(x, y)` returns true iff both
layer-local coordinates `x - offsetX` and `y - offsetY` are nonnegative *and*
the cell is present in the active buffer or one of its four orthogonal
neighbours is. -/
theorem c4_connected_characterization (L : TileLayer) (offX offY x y : ℤ) :
    isTileConnected L offX offY x y =
      (decide (0 ≤ x - offX) && decide (0 ≤ y - offY) &&
        isTileConnectedSpec L offX offY x y) := by
  simp only [isTileConnected, isTileConnectedSpec]
  by_cases hx : 0 ≤ x - offX <;> by_cases hy : 0 ≤ y - offY <;>
    simp [hx, hy, not_le.mp, not_le, lt_iff_not_le]

/-- Claim C6 (counterexample): The SafeZone size does not equal
`BASE_SAFE_ZONE_RATIO × extent` exactly: for an active buffer of pixel width
512, `0.4 × 512 = 204.8` but the computed zone width is
`2 × round(102.4) = 204`. -/
theorem c6_counterexample :
    (updateSafeZone (BoundsRect.mk 256 256 512 512)).width ≠
      baseSafeZoneRatio * (BoundsRect.mk 256 256 512 512).width := by
  have h : jsRound ((512 : ℚ) * baseSafeZoneRatio / 2) = 102 := by
    unfold jsRound baseSafeZoneRatio
    rw [Int.floor_eq_iff]
    constructor <;> norm_num
  simp only [updateSafeZone, baseSafeZoneRatio] at *
  rw [h]
  norm_num

/-- Claim C6 (amended): After `updateSafeZone`, the SafeZone center coincides
exactly with the active buffer's pixel center, and each SafeZone extent is
`2 × round(BASE_SAFE_ZONE_RATIO × extent / 2)` — within 1 pixel of
`BASE_SAFE_ZONE_RATIO × extent`, with equality whenever
`BASE_SAFE_ZONE_RATIO × extent / 2` is an integer. -/
theorem c6_safe_zone_shape (b : BoundsRect) :
    (updateSafeZone b).x + (updateSafeZone b).width / 2 = b.centerX ∧
    (updateSafeZone b).y + (updateSafeZone b).height / 2 = b.centerY ∧
    (updateSafeZone b).width = (jsRound (b.width * baseSafeZoneRatio / 2) : ℚ) * 2 ∧
    (updateSafeZone b).height = (jsRound (b.height * baseSafeZoneRatio / 2) : ℚ) * 2 ∧
    |(updateSafeZone b).width - baseSafeZoneRatio * b.width| ≤ 1 ∧
    |(updateSafeZone b).height - baseSafeZoneRatio * b.height| ≤ 1 := by
  have key : ∀ q : ℚ, |(jsRound q : ℚ) * 2 - 2 * q| ≤ 1 := by
    intro q
    unfold jsRound
    have h1 : (⌊q + 1 / 2⌋ : ℚ) ≤ q + 1 / 2 := Int.floor_le _
    have h2 : q + 1 / 2 - 1 < (⌊q + 1 / 2⌋ : ℚ) := Int.sub_one_lt_floor _
    rw [abs_le]
    constructor <;> linarith
  refine ⟨?_, ?_, rfl, rfl, ?_, ?_⟩
  · simp only [updateSafeZone]
    ring
  · simp only [updateSafeZone]
    ring
  · have := key (b.width * baseSafeZoneRatio / 2)
    simp only [updateSafeZone]
    calc |(jsRound (b.width * baseSafeZoneRatio / 2) : ℚ) * 2 - baseSafeZoneRatio * b.width|
        = |(jsRound (b.width * baseSafeZoneRatio / 2) : ℚ) * 2 -
            2 * (b.width * baseSafeZoneRatio / 2)| := by ring_nf
      _ ≤ 1 := key _
  · simp only [updateSafeZone]
    calc |(jsRound (b.height * baseSafeZoneRatio / 2) : ℚ) * 2 - baseSafeZoneRatio * b.height|
        = |(jsRound (b.height * baseSafeZoneRatio / 2) : ℚ) * 2 -
            2 * (b.height * baseSafeZoneRatio / 2)| := by ring_nf
      _ ≤ 1 := key _

/-- Claim C3 (counterexample): A failed persistence transaction does *not*
leave the dirty flags set: `persistAll` clears every flag before the commit
and does not restore them on failure.  Concretely, with only the attention
category dirty, after a failing transaction the flag is cleared (so the next
autosave would not retry), although the error itself is surfaced. -/
theorem c3_counterexample :
    (WorkerState.mk 0 (fun _ => []) [] 8 [] [] [] [] false true false false false
      false).dirtyAttention = true ∧
    (persistAll (WorkerState.mk 0 (fun _ => []) [] 8 [] [] [] [] false true false false
      false false) (DBState.mk (fun _ => none) none none (fun _ => none))
      false).1.dirtyAttention = false ∧
    (persistAll (WorkerState.mk 0 (fun _ => []) [] 8 [] [] [] [] false true false false
      false false) (DBState.mk (fun _ => none) none none (fun _ => none))
      false).2.2 = Except.error () := by
  refine ⟨rfl, ?_, ?_⟩ <;>
    simp [persistAll, hasDirty, clearFlags]

/-- Claim C3 (amended): On a store exception inside the atomic transaction, the
dirty flags do *not* remain set — `persistAll` cleared them before issuing
the transaction and leaves them cleared — the database is unchanged, and the
failure is surfaced to the caller; `flush()` forwards that failure unchanged
rather than swallowing it. -/
theorem c3_flush_failure (w : WorkerState) (db : DBState) (h : hasDirty w = true) :
    persistAll w db false = (clearFlags w, db, Except.error ()) ∧
    flush w db false = (clearFlags w, db, Except.error ()) := by
  have hp : persistAll w db false = (clearFlags w, db, Except.error ()) := by
    unfold persistAll
    rw [if_neg (by simp [h])]
    rfl
  exact ⟨hp, hp⟩

/-- Witness for the amended C3 theorem at a concrete input. -/
theorem c3_witness :
    persistAll (WorkerState.mk 0 (fun _ => []) [] 8 [] [] [] [] false true false false
        false false) (DBState.mk (fun _ => none) none none (fun _ => none)) false =
      (clearFlags (WorkerState.mk 0 (fun _ => []) [] 8 [] [] [] [] false true false
        false false false), DBState.mk (fun _ => none) none none (fun _ => none),
        Except.error ()) ∧
    flush (WorkerState.mk 0 (fun _ => []) [] 8 [] [] [] [] false true false false
        false false) (DBState.mk (fun _ => none) none none (fun _ => none)) false =
      (clearFlags (WorkerState.mk 0 (fun _ => []) [] 8 [] [] [] [] false true false
        false false false), DBState.mk (fun _ => none) none none (fun _ => none),
        Except.error ()) :=
  c3_flush_failure _ _ (by simp [hasDirty])

/-! ## Lemmas on the 32-bit key packing -/

theorem zpow31 : (2 : ℤ) ^ 31 = 2147483648 := by norm_num

theorem zpow32 : (2 : ℤ) ^ 32 = 4294967296 := by norm_num

theorem toUInt32_toInt32 (n : ℤ) : toUInt32 (toInt32 n) = toUInt32 n := by
  unfold toUInt32 toInt32
  congr 1
  rw [zpow31, zpow32]
  omega

theorem toInt32_inj {a b : ℤ} (ha : 0 ≤ a) (ha2 : a < 2 ^ 32) (hb : 0 ≤ b)
    (hb2 : b < 2 ^ 32) (h : toInt32 a = toInt32 b) : a = b := by
  unfold toInt32 at h
  rw [zpow31, zpow32] at h
  rw [zpow32] at ha2 hb2
  omega

/-- On in-range coordinates the packed key is the canonical base-65536 value,
wrapped to a signed 32-bit integer. -/
theorem tileKey_eq_of_range {x y : ℤ} (hx : 0 ≤ x) (hx2 : x < 65536) (hy : 0 ≤ y)
    (hy2 : y < 65536) : tileKey x y = toInt32 (x * 65536 + y) := by
  have ey : toUInt32 y = y.toNat := by
    unfold toUInt32
    congr 1
    rw [zpow32]
    omega
  have e65535 : toUInt32 65535 = 65535 := by decide
  have hand : (toUInt32 y &&& toUInt32 65535) = y.toNat := by
    rw [ey, e65535]
    rw [show (65535 : ℕ) = 2 ^ 16 - 1 from by norm_num, Nat.and_pow_two_sub_one_eq_mod]
    rw [show (2 : ℕ) ^ 16 = 65536 from by norm_num]
    exact Nat.mod_eq_of_lt (by omega)
  have handInt : jsAnd y 65535 = y := by
    unfold jsAnd
    rw [hand]
    unfold toInt32
    rw [Int.toNat_of_nonneg hy, zpow31, zpow32]
    omega
  have eshl : toUInt32 (jsShl16 x) = x.toNat * 65536 := by
    unfold jsShl16
    rw [toUInt32_toInt32]
    unfold toUInt32
    rw [show (2 : ℤ) ^ 16 = 65536 from by norm_num, zpow32]
    omega
  unfold tileKey
  rw [handInt]
  unfold jsOr
  rw [eshl, ey]
  have hor : (x.toNat * 65536 ||| y.toNat) = x.toNat * 65536 + y.toNat := by
    have h1 : y.toNat < 2 ^ 16 := by
      rw [show (2 : ℕ) ^ 16 = 65536 from by norm_num]
      omega
    have h2 := Nat.mul_add_lt_is_or h1 x.toNat
    rw [show (2 : ℕ) ^ 16 = 65536 from by norm_num, Nat.mul_comm] at h2
    exact h2.symm
  rw [hor]
  have hcast : ((x.toNat * 65536 + y.toNat : ℕ) : ℤ) = x * 65536 + y := by
    push_cast
    rw [Int.toNat_of_nonneg hx, Int.toNat_of_nonneg hy]
  rw [hcast]

/-- Claim C10: `tileKey` is injective on `[0, 65535]²` — so `setTile`/`getTile`
on distinct in-range coordinates never alias — and it is not injective
outside that range: `tileKey 0 0 = tileKey 0 65536`, so an out-of-range write
lands on the key of an unrelated in-range tile. -/
theorem c10_tileKey_packing :
    (∀ x y a b : ℤ, 0 ≤ x → x ≤ 65535 → 0 ≤ y → y ≤ 65535 → 0 ≤ a → a ≤ 65535 →
      0 ≤ b → b ≤ 65535 →
      (tileKey x y = tileKey a b ↔ x = a ∧ y = b) ∧
      (∀ (level : ℤ → Option ℤ) (idx : ℤ), ¬(x = a ∧ y = b) →
        getTile (setTile level x y idx) a b = getTile level a b)) ∧
    tileKey 0 0 = tileKey 0 65536 := by
  constructor
  · intro x y a b hx hx2 hy hy2 ha ha2 hb hb2
    have hinj : tileKey x y = tileKey a b ↔ x = a ∧ y = b := by
      constructor
      · intro h
        rw [tileKey_eq_of_range hx (by omega) hy (by omega),
          tileKey_eq_of_range ha (by omega) hb (by omega)] at h
        have := toInt32_inj (by omega) (by rw [zpow32]; omega) (by omega)
          (by rw [zpow32]; omega) h
        constructor <;> omega
      · rintro ⟨rfl, rfl⟩
        rfl
    refine ⟨hinj, ?_⟩
    intro level idx hne
    unfold getTile setTile
    rw [if_neg]
    intro hk
    exact hne (hinj.mp hk.symm)
  · decide

/-- Witness for C10 at concrete inputs. -/
theorem c10_witness :
    (tileKey 3 4 = tileKey 3 5 ↔ (3 : ℤ) = 3 ∧ (4 : ℤ) = 5) ∧
    getTile (setTile (fun _ => none) 3 4 7) 3 5 = getTile (fun _ => none) 3 5 :=
  ⟨(c10_tileKey_packing.1 3 4 3 5 (by norm_num) (by norm_num) (by norm_num) (by norm_num)
      (by norm_num) (by norm_num) (by norm_num) (by norm_num)).1,
   (c10_tileKey_packing.1 3 4 3 5 (by norm_num) (by norm_num) (by norm_num) (by norm_num)
      (by norm_num) (by norm_num) (by norm_num) (by norm_num)).2 (fun _ => none) 7
      (by norm_num)⟩

end DungeonBuilder
